import Mathlib

/-!
# Verification of the consistent-classifier core

Shallow embedding of the consistent-classifier engine:

* the Label Clustering Store (Go package `internal/disjoint_set`, a union-find
  over labels with path compression and union by rank),
* its JSON persistence contract (`MarshalJSON`/`UnmarshalJSON` together with
  `FileDSUPersistence.Load`/`Save`),
* the classification orchestrator (`Classifier.Classify`,
  `processBackgroundTasks`, `updateLabelClustering`, `cacheTextEmbedding`,
  `cacheLabelEmbedding`, `Close`, `GetMetrics`).

Go slices become `List Nat`, Go maps become association lists with
overwrite-on-insert, Go `float32` similarity scores become `ℚ` (only order
and field operations on scores are used by the engine), and the external
collaborators (embedding provider, vector indexes, LLM, persistence backing
file, clock, uuid source) become explicit function-valued parameters.
Go's recursive `find` is modelled with explicit fuel; all theorems are
stated for well-formed states where the fuel provably suffices, matching
the states the Go code can actually reach without panicking.
-/

namespace CC

/-- A value of a Go `map[string]any` metadata map: either a string or some
non-string payload (the Go code only ever distinguishes these two cases,
via `.(string)` type assertions). -/
inductive MetaVal
  | str (s : String)
  | nonstr
deriving DecidableEq, Repr

/-- Association-list lookup with decidable key equality; first binding wins,
modelling Go map reads (`v, ok := m[k]`). -/
def lookupKey {α β : Type} [DecidableEq α] : List (α × β) → α → Option β
  | [], _ => none
  | (k1, v1) :: rest, k => if k1 = k then some v1 else lookupKey rest k

/-- Association-list insert that overwrites an existing binding in place and
otherwise appends, modelling Go map writes (`m[k] = v`); keeps one binding
per key so that list length models Go `len(m)`. -/
def upsertKey {α β : Type} [DecidableEq α] : List (α × β) → α → β → List (α × β)
  | [], k, v => [(k, v)]
  | (k1, v1) :: rest, k, v =>
    if k1 = k then (k, v) :: rest else (k1, v1) :: upsertKey rest k v

/-- The Label Clustering Store, Go `internal/disjoint_set.dsu`:
`root` and `rank` arrays, the `labels : map[string]int` table and the
`labelIndex : map[int]string` reverse table. -/
structure DSU where
  root : List Nat
  rank : List Nat
  labels : List (String × Nat)
  labelIndex : List (Nat × String)
deriving DecidableEq, Repr

/-- Go `NewDSU()`: everything empty. -/
def emptyDSU : DSU := ⟨[], [], [], []⟩

/-- Read of `root[x]`; out of range defaults to `x` itself (the Go code would
panic there, and every theorem below stays in range). -/
def parentOf (r : List Nat) (x : Nat) : Nat := r.getD x x

/-- Read of `rank[x]`; out of range defaults to `0`. -/
def rankOf (q : List Nat) (x : Nat) : Nat := q.getD x 0

/-- Fueled model of the Go recursive `find` with path compression:

    func (d *dsu) find(x int) int \x7b
        if d.root[x] == x \x7b return x \x7d
        d.root[x] = d.find(d.root[x]) // Path compression
        return d.root[x]
    \x7d

Returns the discovered root together with the compressed `root` array.
The fuel is a modelling artifact for termination; on well-formed states
fuel `r.length` is proven sufficient below. -/
def findAux : Nat → List Nat → Nat → Nat × List Nat
  | 0, _r, x => (x, _r)
  | fuel+1, r, x =>
    if parentOf r x = x then (x, r)
    else
      let p := findAux fuel r (parentOf r x)
      (p.1, p.2.set x p.1)

/-- Go `d.find(x)` acting on the whole store. -/
def DSU.find (d : DSU) (x : Nat) : Nat × DSU :=
  let f := findAux d.root.length d.root x
  (f.1, { d with root := f.2 })

/-- Go `Add(label)`: append a self-rooted entry of rank 0, register the label
in both lookup tables, return the new index. -/
def DSU.add (d : DSU) (label : String) : Nat × DSU :=
  let root := d.root ++ [d.root.length]
  let rank := d.rank ++ [0]
  let idx := root.length - 1
  (idx, { root := root, rank := rank,
          labels := upsertKey d.labels label idx,
          labelIndex := upsertKey d.labelIndex idx label })

/-- Go `FindOrCreate(label)`: look the label up; add it when unseen, else
return the path-compressed root of its index. -/
def DSU.findOrCreate (d : DSU) (label : String) : Nat × DSU :=
  match lookupKey d.labels label with
  | none => d.add label
  | some idx => d.find idx

/-- Go `Union(x, y)` on the raw arrays: find both roots (compressing), no-op
when equal, else link by rank; on a tie `x`'s root wins and its rank is
incremented.  Returns the updated `(root, rank)` pair. -/
def unionArrays (r q : List Nat) (x y : Nat) : List Nat × List Nat :=
  let f1 := findAux r.length r x
  let f2 := findAux f1.2.length f1.2 y
  let rootX := f1.1
  let rootY := f2.1
  let r2 := f2.2
  if rootX = rootY then (r2, q)
  else if rankOf q rootX > rankOf q rootY then (r2.set rootY rootX, q)
  else if rankOf q rootX < rankOf q rootY then (r2.set rootX rootY, q)
  else (r2.set rootY rootX, q.set rootX (rankOf q rootX + 1))

/-- Go `Union(x, y)` acting on the whole store (`labels`/`labelIndex` are
untouched). -/
def DSU.union (d : DSU) (x y : Nat) : DSU :=
  { d with root := (unionArrays d.root d.rank x y).1,
           rank := (unionArrays d.root d.rank x y).2 }

/-- Go `Connected(x, y)`: `d.find(x) == d.find(y)`, the two finds sequenced
left to right, each compressing the store. -/
def DSU.connected (d : DSU) (x y : Nat) : Bool × DSU :=
  let f1 := d.find x
  let f2 := f1.2.find y
  (f1.1 == f2.1, f2.2)

/-- Go `Size()`: `len(d.labels)` (the label map, not the root array). -/
def DSU.size (d : DSU) : Nat := d.labels.length

/-- One iteration of the Go `CountSets()` loop: `find` the index `i`
(compressing the carried root array) and record the discovered root in the
carried root set. -/
def countStep (acc : List Nat × List Nat) (i : Nat) : List Nat × List Nat :=
  let f := findAux acc.2.length acc.2 i
  (if f.1 ∈ acc.1 then acc.1 else f.1 :: acc.1, f.2)

/-- Go `CountSets()`: iterate every index, `find` it (compressing as it
goes), collect the roots in a set, return the set's cardinality. -/
def DSU.countSets (d : DSU) : Nat :=
  (((List.range d.root.length).foldl countStep (([] : List Nat), d.root)).1).length

/-- Go `FindLabel(idx)`: reverse lookup in `labelIndex`, empty string when
the index is unknown. -/
def DSU.findLabel (d : DSU) (idx : Nat) : String :=
  match lookupKey d.labelIndex idx with
  | some label => label
  | none => ""

/-! ## Persistence (`MarshalJSON` / `UnmarshalJSON` / `FileDSUPersistence`) -/

/-- The serialized shape of a store: exactly the three fields written by
`MarshalJSON` (`root`, `rank`, `labels`). -/
structure DSUSaved where
  root : List Nat
  rank : List Nat
  labels : List (String × Nat)
deriving DecidableEq, Repr

/-- Go `MarshalJSON`: serialize `root`, `rank` and `labels`; `labelIndex` is
not persisted. -/
def DSU.marshalJSON (d : DSU) : DSUSaved := ⟨d.root, d.rank, d.labels⟩

/-- Go `UnmarshalJSON` on receiver `d`: overwrite `root`, `rank` and
`labels` from the decoded data; the receiver's `labelIndex` field is left
untouched (it is not part of the decoded struct and is not rebuilt). -/
def DSU.unmarshalJSON (d : DSU) (s : DSUSaved) : DSU :=
  { d with root := s.root, rank := s.rank, labels := s.labels }

/-- Go `FileDSUPersistence.Load`: a missing backing file yields `NewDSU()`;
a present file is decoded into a fresh `NewDSU()` receiver. I/O and JSON
syntax errors are outside this model. -/
def fileLoad (file : Option DSUSaved) : DSU :=
  match file with
  | none => emptyDSU
  | some s => emptyDSU.unmarshalJSON s

/-- Go `FileDSUPersistence.Save`: full overwrite of the backing file with
the marshalled store. -/
def fileSave (d : DSU) : DSUSaved := d.marshalJSON

/-! ## Well-formedness and the representative map -/

/-- Pure (non-compressing) fueled root walk; `reprOf` below fixes the fuel. -/
def rootAux : Nat → List Nat → Nat → Nat
  | 0, _r, x => x
  | fuel+1, r, x => if parentOf r x = x then x else rootAux fuel r (parentOf r x)

/-- The canonical representative of `x` in root array `r`: the fixpoint the Go
`find` would reach.  Fuel `r.length` suffices on well-formed arrays. -/
def reprOf (r : List Nat) (x : Nat) : Nat := rootAux r.length r x

/-- Well-formedness of the `root`/`rank` arrays: equal lengths, parents stay
in range, and rank strictly increases along non-trivial parent edges.  This is
exactly the invariant the Go code maintains and needs for `find` to
terminate. -/
def WFr (r q : List Nat) : Prop :=
  r.length = q.length ∧
  ∀ x, x < r.length →
    parentOf r x < r.length ∧ (parentOf r x ≠ x → rankOf q x < rankOf q (parentOf r x))

/-- Well-formedness of the whole store: array invariant plus every label
index in range. -/
def DSU.WF (d : DSU) : Prop :=
  WFr d.root d.rank ∧ ∀ p ∈ d.labels, p.2 < d.root.length

/-- Termination measure: how many indices carry rank at least `rank x`.
Strictly decreases along parent edges under `WFr`. -/
def measureGE (r q : List Nat) (x : Nat) : Nat :=
  ((Finset.range r.length).filter (fun y => rankOf q x ≤ rankOf q y)).card

/-! ## Sequential operation sequences on the store -/

/-- A structural mutation of the clustering store: an `Add` or a `Union`. -/
inductive DSUOp
  | addOp (label : String)
  | unionOp (x y : Nat)
deriving DecidableEq, Repr

/-- Execute one operation. -/
def applyOp (d : DSU) : DSUOp → DSU
  | .addOp lbl => (d.add lbl).2
  | .unionOp x y => d.union x y

/-- Execute a sequence of operations left to right. -/
def runOps : DSU → List DSUOp → DSU
  | d, [] => d
  | d, op :: ops => runOps (applyOp d op) ops

/-- Number of `Add` operations in a sequence. -/
def numAdds : List DSUOp → Nat
  | [] => 0
  | .addOp _ :: ops => numAdds ops + 1
  | .unionOp _ _ :: ops => numAdds ops

/-- Number of successful (non-no-op) unions in a sequence executed from `d`:
a union is a no-op exactly when its two arguments already share a root at the
moment it executes. -/
def numSuccUnions : DSU → List DSUOp → Nat
  | _, [] => 0
  | d, .addOp lbl :: ops => numSuccUnions (applyOp d (.addOp lbl)) ops
  | d, .unionOp x y :: ops =>
    (if reprOf d.root x = reprOf d.root y then 0 else 1) + numSuccUnions (d.union x y) ops

/-- Index validity of a sequence executed from `d`: every union argument is
in range when it executes (the Go code would panic otherwise). -/
def ValidOps : DSU → List DSUOp → Prop
  | _, [] => True
  | d, .addOp lbl :: ops => ValidOps (applyOp d (.addOp lbl)) ops
  | d, .unionOp x y :: ops =>
    x < d.root.length ∧ y < d.root.length ∧ ValidOps (d.union x y) ops

/-- Execute a sequence of unions (index pairs) left to right. -/
def runUnions : DSU → List (Nat × Nat) → DSU
  | d, [] => d
  | d, p :: ps => runUnions (d.union p.1 p.2) ps

/-- Index validity of a union sequence executed from `d`. -/
def ValidUnions : DSU → List (Nat × Nat) → Prop
  | _, [] => True
  | d, p :: ps =>
    p.1 < d.root.length ∧ p.2 < d.root.length ∧ ValidUnions (d.union p.1 p.2) ps

/-! ## The classification orchestrator (`classifier.go`) -/

/-- A single vector-search result, Go `types.VectorMatch`: id, similarity
score and a string-keyed metadata map.  Scores are modelled in `ℚ`; the
engine only compares them. -/
structure VectorMatch where
  id : String
  score : ℚ
  metadata : List (String × MetaVal)
deriving DecidableEq, Repr

/-- Read a string-typed metadata field: Go `v, ok := m[k].(string)`; `none`
when the key is absent or the value is not a string. -/
def metaString (m : List (String × MetaVal)) (k : String) : Option String :=
  match lookupKey m k with
  | some (.str s) => some s
  | _ => none

/-- The orchestrator's error taxonomy (each Go `fmt.Errorf` site of
`Classify`, carrying the wrapped collaborator message where one exists). -/
inductive CError
  | shuttingDown
  | invalidInput
  | embeddingFailure (msg : String)
  | searchFailure (msg : String)
  | corruptCacheEntry
  | llmFailure (msg : String)
  | emptyLabel
deriving DecidableEq, Repr

/-- Go `unicode.IsSpace`: the Unicode White_Space property
(U+0009–U+000D, U+0020, U+0085, U+00A0, U+1680, U+2000–U+200A, U+2028,
U+2029, U+202F, U+205F, U+3000). -/
def goIsSpace (c : Char) : Bool :=
  decide (c.toNat = 0x20 ∨ (0x9 ≤ c.toNat ∧ c.toNat ≤ 0xD) ∨ c.toNat = 0x85 ∨
    c.toNat = 0xA0 ∨ c.toNat = 0x1680 ∨ (0x2000 ≤ c.toNat ∧ c.toNat ≤ 0x200A) ∨
    c.toNat = 0x2028 ∨ c.toNat = 0x2029 ∨ c.toNat = 0x202F ∨ c.toNat = 0x205F ∨
    c.toNat = 0x3000)

/-- Go `strings.TrimSpace` on the character list: drop White_Space from both
ends. -/
def trimSpaceList (l : List Char) : List Char :=
  ((l.dropWhile goIsSpace).reverse.dropWhile goIsSpace).reverse

/-- Go `strings.TrimSpace`. -/
def trimSpace (s : String) : String := ⟨trimSpaceList s.data⟩

/-- The external collaborators of one `Classify` call, Go interfaces
`EmbeddingClient`, `VectorClient` (content and label spaces), `LLMClient`,
plus the call's context-cancellation flag, the uuid source and the two
wall-clock durations the call would measure.  `Except.error`/`some` carry
the collaborator's error message. -/
structure Env where
  embed : String → Except String (List ℚ)
  searchContent : List ℚ → Nat → Except String (List VectorMatch)
  searchLabel : List ℚ → Nat → Except String (List VectorMatch)
  upsertContent : String → List ℚ → List (String × MetaVal) → Option String
  upsertLabel : String → List ℚ → List (String × MetaVal) → Option String
  llm : String → Except String String
  newUUID : String
  ctxCanceled : Bool
  userLatency : Nat
  bgLatency : Nat

/-- The classifier's mutable state: the clustering store, the two similarity
thresholds, the metric counters, the `closing` flag and the `sync.Once`
consumed flag. -/
structure CState where
  dsu : DSU
  minSimilarityContent : ℚ
  minSimilarityLabel : ℚ
  totalClassifications : Nat
  cacheHits : Nat
  closing : Bool
  onceDone : Bool

/-- Go `Result`. -/
structure Result where
  label : String
  cacheHit : Bool
  confidence : ℚ
  userFacingLatency : Nat
  backgroundLatency : Nat
deriving DecidableEq, Repr

/-- Go `Metrics`. -/
structure Metrics where
  uniqueLabels : Nat
  convergedLabels : Nat
  cacheHitRate : ℚ
deriving DecidableEq, Repr

/-- Go `DefaultMinSimilarity = 0.80`. -/
def DefaultMinSimilarity : ℚ := 4/5

/-- Go `recordCacheHit`. -/
def recordCacheHit (c : CState) : CState :=
  { c with totalClassifications := c.totalClassifications + 1,
           cacheHits := c.cacheHits + 1 }

/-- Go `recordClassification`. -/
def recordClassification (c : CState) : CState :=
  { c with totalClassifications := c.totalClassifications + 1 }

/-- Go `updateLabelClustering`: skip blank labels; embed the label, search
the label space for the single nearest match; when a match clears the label
threshold and carries a string `root` metadata field that root becomes the
canonical label, else the label itself; union the label with that root. -/
def updateLabelClustering (c : CState) (env : Env) (label : String) :
    Option String × CState :=
  let label := trimSpace label
  if label = "" then (none, c)
  else
    match env.embed label with
    | .error e => (some e, c)
    | .ok labelEmbedding =>
      match env.searchLabel labelEmbedding 1 with
      | .error e => (some e, c)
      | .ok found =>
        let rootLabel :=
          match found.head? with
          | some m =>
            if m.score ≥ c.minSimilarityLabel then
              match metaString m.metadata "root" with
              | some root => root
              | none => label
            else label
          | none => label
        let f1 := c.dsu.findOrCreate rootLabel
        let f2 := f1.2.findOrCreate label
        (none, { c with dsu := f2.2.union f1.1 f2.1 })

/-- Go `cacheTextEmbedding`: upsert the text embedding under a fresh uuid
with `vector_text`/`label` metadata. -/
def cacheTextEmbedding (env : Env) (text : String) (embedding : List ℚ)
    (label : String) : Option String :=
  env.upsertContent env.newUUID embedding
    [("vector_text", .str text), ("label", .str label)]

/-- Go `cacheLabelEmbedding`: skip blank labels; embed the label, resolve
its cluster root via the store (falling back to the label itself when the
reverse lookup is empty), upsert keyed by the label itself. -/
def cacheLabelEmbedding (c : CState) (env : Env) (label : String) :
    Option String × CState :=
  let label := trimSpace label
  if label = "" then (none, c)
  else
    match env.embed label with
    | .error e => (some e, c)
    | .ok labelEmbedding =>
      let f := c.dsu.findOrCreate label
      let rootLabel0 := f.2.findLabel f.1
      let rootLabel := if rootLabel0 = "" then label else rootLabel0
      (env.upsertLabel label labelEmbedding
        [("vector_text", .str label), ("label", .str label), ("root", .str rootLabel)],
       { c with dsu := f.2 })

/-- Go `processBackgroundTasks`: fail fast when the context is already
cancelled, else run the three maintenance jobs and report the first
non-nil error (the Go code runs the jobs in goroutines and drains an error
channel; the spec fixes the drain order as insignificant, and this model
collects in job order 1, 2, 3). -/
def processBackgroundTasks (c : CState) (env : Env) (text : String)
    (embedding : List ℚ) (label : String) : Option String × CState :=
  if env.ctxCanceled then (some "context canceled", c)
  else
    let t1 := updateLabelClustering c env label
    let e2 := cacheTextEmbedding env text embedding label
    let t3 := cacheLabelEmbedding t1.2 env label
    (t1.1 <|> e2 <|> t3.1, t3.2)

/-- The cache-miss tail of Go `Classify`: call the LLM, trim its label,
fail with `EmptyLabel` when blank, record the miss, run maintenance
(errors only logged) and return the fresh label. -/
def classifyMiss (c : CState) (env : Env) (text : String)
    (embedding : List ℚ) : Except CError (Result × CState) :=
  match env.llm text with
  | .error e => .error (.llmFailure e)
  | .ok label0 =>
    let label := trimSpace label0
    if label = "" then .error .emptyLabel
    else
      let c1 := recordClassification c
      let bg := processBackgroundTasks c1 env text embedding label
      .ok ({ label := label, cacheHit := false, confidence := 0,
             userFacingLatency := env.userLatency,
             backgroundLatency := env.bgLatency },
           bg.2)

/-- Go `Classify`: reject when closing; trim the text and reject blank
input; embed; search the content space for the single nearest match; hit
iff a match exists with score at or above the content threshold (then the
stored label must be a string, is resolved to its cluster root through the
store and returned with the match score and zero background latency);
else the miss path. -/
def classify (c : CState) (env : Env) (text : String) :
    Except CError (Result × CState) :=
  if c.closing then .error .shuttingDown
  else
    let text := trimSpace text
    if text = "" then .error .invalidInput
    else
      match env.embed text with
      | .error e => .error (.embeddingFailure e)
      | .ok embedding =>
        match env.searchContent embedding 1 with
        | .error e => .error (.searchFailure e)
        | .ok found =>
          match found.head? with
          | some m =>
            if m.score ≥ c.minSimilarityContent then
              match metaString m.metadata "label" with
              | none => .error .corruptCacheEntry
              | some label =>
                let c1 := recordCacheHit c
                let f := c1.dsu.findOrCreate label
                .ok ({ label := f.2.findLabel f.1, cacheHit := true,
                       confidence := m.score,
                       userFacingLatency := env.userLatency,
                       backgroundLatency := 0 },
                     { c1 with dsu := f.2 })
            else classifyMiss c env text embedding
          | none => classifyMiss c env text embedding

/-- Go `Close`: under `sync.Once`, flip the closing flag, wait for
background tasks and save the store; the local `saveErr` of a later call
stays `nil`.  Returns (outcome, new state, whether the wait-and-save
sequence ran in this call). -/
def closeClassifier (c : CState) (save : DSU → Option String) :
    Option String × CState × Bool :=
  if c.onceDone then (none, c, false)
  else
    let c1 := { c with closing := true, onceDone := true }
    (save c1.dsu, c1, true)

/-- Go `GetMetrics`: unique labels, converged clusters, and the cache-hit
rate as a percentage, `0` when nothing has been classified yet. -/
def getMetrics (c : CState) : Metrics :=
  { uniqueLabels := c.dsu.size,
    convergedLabels := c.dsu.countSets,
    cacheHitRate :=
      if c.totalClassifications > 0 then
        (c.cacheHits : ℚ) / (c.totalClassifications : ℚ) * 100
      else 0 }

/-- A fresh classifier over an empty store with the default thresholds
(used to instantiate theorems at concrete inputs). -/
def freshState : CState :=
  { dsu := emptyDSU, minSimilarityContent := DefaultMinSimilarity,
    minSimilarityLabel := DefaultMinSimilarity,
    totalClassifications := 0, cacheHits := 0,
    closing := false, onceDone := false }

/-- A benign collaborator environment: empty search results, successful
upserts, an LLM answering `"tech"` (used to instantiate theorems at
concrete inputs). -/
def quietEnv : Env :=
  { embed := fun _ => .ok [1],
    searchContent := fun _ _ => .ok [],
    searchLabel := fun _ _ => .ok [],
    upsertContent := fun _ _ _ => none,
    upsertLabel := fun _ _ _ => none,
    llm := fun _ => .ok "tech",
    newUUID := "uuid-0",
    ctxCanceled := false,
    userLatency := 0,
    bgLatency := 0 }

/-- A stored content match: similarity 0.95, metadata label `"greeting"`
(concrete instantiation input). -/
def hitMatch : VectorMatch := ⟨"vec-1", 95/100, [("label", MetaVal.str "greeting")]⟩

/-- An environment whose content search returns `hitMatch` (concrete
instantiation input). -/
def hitEnv : Env := { quietEnv with searchContent := fun _ _ => .ok [hitMatch] }

/-- An environment whose LLM collaborator answers an upper-case label with
surrounding whitespace (concrete instantiation input). -/
def upperEnv : Env := { quietEnv with llm := fun _ => .ok "  TECH  " }

/-! ## List access helper lemmas -/

theorem getD_of_ge {l : List Nat} {i d : Nat} (h : l.length ≤ i) : l.getD i d = d := by
  induction l generalizing i with
  | nil => rfl
  | cons a t ih =>
    cases i with
    | zero => simp at h
    | succ j => simpa using ih (by simpa using h)

theorem getD_append_lt {l : List Nat} {x i d : Nat} (h : i < l.length) :
    (l ++ [x]).getD i d = l.getD i d := by
  induction l generalizing i with
  | nil => simp at h
  | cons a t ih =>
    cases i with
    | zero => rfl
    | succ j => simpa using ih (by simpa using h)

theorem getD_append_self {l : List Nat} {x d : Nat} : (l ++ [x]).getD l.length d = x := by
  induction l with
  | nil => rfl
  | cons a t ih => simp only [List.cons_append, List.length_cons, List.getD_cons_succ]; exact ih

theorem getD_set_eq {l : List Nat} {a v d : Nat} (ha : a < l.length) :
    (l.set a v).getD a d = v := by
  induction l generalizing a with
  | nil => simp at ha
  | cons b t ih =>
    cases a with
    | zero => rfl
    | succ j => simpa using ih (by simpa using ha)

theorem getD_set_ne {l : List Nat} {a v i d : Nat} (h : i ≠ a) :
    (l.set a v).getD i d = l.getD i d := by
  induction l generalizing a i with
  | nil => rfl
  | cons b t ih =>
    cases a with
    | zero => cases i with
      | zero => exact absurd rfl h
      | succ j => rfl
    | succ m => cases i with
      | zero => rfl
      | succ j => simpa using ih (fun hc => h (by simpa using hc))

/-! ## Measure and representative lemmas -/

theorem measureGE_le (r q : List Nat) (x : Nat) : measureGE r q x ≤ r.length := by
  classical
  exact le_trans (Finset.card_filter_le _ _) (le_of_eq (Finset.card_range _))

theorem measureGE_pos {r q : List Nat} {x : Nat} (hx : x < r.length) :
    0 < measureGE r q x := by
  classical
  refine Finset.card_pos.mpr ⟨x, ?_⟩
  simp [measureGE, Finset.mem_filter, Finset.mem_range, hx]

theorem measureGE_parent_lt {r q : List Nat} {x : Nat} (wf : WFr r q)
    (hx : x < r.length) (hp : parentOf r x ≠ x) :
    measureGE r q (parentOf r x) < measureGE r q x := by
  classical
  have hrank : rankOf q x < rankOf q (parentOf r x) := (wf.2 x hx).2 hp
  refine Finset.card_lt_card ?_
  constructor
  · intro y hy
    simp only [measureGE, Finset.mem_filter, Finset.mem_range] at hy ⊢
    exact ⟨hy.1, le_trans (le_of_lt hrank) hy.2⟩
  · intro hsub
    have hxmem : x ∈ (Finset.range r.length).filter (fun y => rankOf q x ≤ rankOf q y) := by
      simp [Finset.mem_filter, Finset.mem_range, hx]
    have := hsub hxmem
    simp only [Finset.mem_filter, Finset.mem_range] at this
    omega

/-- The induction principle along parent chains of a well-formed array. -/
theorem parent_chain_induction {r q : List Nat} (wf : WFr r q) (P : Nat → Prop)
    (hroot : ∀ x, x < r.length → parentOf r x = x → P x)
    (hstep : ∀ x, x < r.length → parentOf r x ≠ x → P (parentOf r x) → P x) :
    ∀ x, x < r.length → P x := by
  have key : ∀ n x, measureGE r q x ≤ n → x < r.length → P x := by
    intro n
    induction n with
    | zero =>
      intro x hm hx
      have hpos : 0 < measureGE r q x := measureGE_pos hx
      omega
    | succ n ih =>
      intro x hm hx
      by_cases hp : parentOf r x = x
      · exact hroot x hx hp
      · have hlt := measureGE_parent_lt wf hx hp
        exact hstep x hx hp (ih _ (by omega) (wf.2 x hx).1)
  intro x hx
  exact key (measureGE r q x) x le_rfl hx

/-- `rootAux` does not depend on its fuel once the fuel dominates the
measure. -/
theorem rootAux_stable {r q : List Nat} (wf : WFr r q) :
    ∀ f1 f2 x, x < r.length → measureGE r q x ≤ f1 → measureGE r q x ≤ f2 →
      rootAux f1 r x = rootAux f2 r x := by
  intro f1
  induction f1 using Nat.strong_induction_on with
  | _ f1 ih =>
    intro f2 x hx h1 h2
    have hpos := measureGE_pos (q := q) hx
    obtain ⟨a, rfl⟩ : ∃ a, f1 = a + 1 := ⟨f1 - 1, by omega⟩
    obtain ⟨b, rfl⟩ : ∃ b, f2 = b + 1 := ⟨f2 - 1, by omega⟩
    by_cases hp : parentOf r x = x
    · simp [rootAux, hp]
    · have hplt : parentOf r x < r.length := (wf.2 x hx).1
      have hm := measureGE_parent_lt wf hx hp
      simp only [rootAux, hp, if_false]
      exact ih a (by omega) b (parentOf r x) hplt (by omega) (by omega)

/-- Any sufficient fuel computes `reprOf`. -/
theorem rootAux_eq_reprOf {r q : List Nat} (wf : WFr r q) {f x : Nat}
    (hx : x < r.length) (hf : measureGE r q x ≤ f) :
    rootAux f r x = reprOf r x :=
  rootAux_stable wf f r.length x hx hf (measureGE_le r q x)

theorem reprOf_root {r : List Nat} {x : Nat} (hp : parentOf r x = x) :
    reprOf r x = x := by
  unfold reprOf
  cases h : r.length with
  | zero => rfl
  | succ n => simp [rootAux, hp]

theorem reprOf_of_ge {r : List Nat} {x : Nat} (hx : r.length ≤ x) :
    reprOf r x = x :=
  reprOf_root (getD_of_ge hx)

theorem reprOf_step {r q : List Nat} (wf : WFr r q) {x : Nat}
    (hx : x < r.length) (hp : parentOf r x ≠ x) :
    reprOf r x = reprOf r (parentOf r x) := by
  have hplt : parentOf r x < r.length := (wf.2 x hx).1
  have hm := measureGE_parent_lt wf hx hp
  have hlen : 0 < r.length := lt_of_le_of_lt (Nat.zero_le x) hx
  obtain ⟨n, hn⟩ : ∃ n, r.length = n + 1 := ⟨r.length - 1, by omega⟩
  have hfin : measureGE r q (parentOf r x) ≤ n := by
    have h1 := measureGE_le r q x
    omega
  calc reprOf r x = rootAux (n + 1) r x := by rw [reprOf, hn]
    _ = rootAux n r (parentOf r x) := by simp [rootAux, hp]
    _ = reprOf r (parentOf r x) := rootAux_eq_reprOf wf hplt hfin

theorem reprOf_lt {r q : List Nat} (wf : WFr r q) {x : Nat} (hx : x < r.length) :
    reprOf r x < r.length := by
  refine parent_chain_induction wf (fun y => reprOf r y < r.length) ?_ ?_ x hx
  · intro y hy hp
    rw [reprOf_root hp]; exact hy
  · intro y hy hp ih
    rw [reprOf_step wf hy hp]; exact ih

theorem reprOf_fix {r q : List Nat} (wf : WFr r q) {x : Nat} (hx : x < r.length) :
    parentOf r (reprOf r x) = reprOf r x := by
  refine parent_chain_induction wf (fun y => parentOf r (reprOf r y) = reprOf r y) ?_ ?_ x hx
  · intro y hy hp
    rw [reprOf_root hp]; exact hp
  · intro y hy hp ih
    rw [reprOf_step wf hy hp]; exact ih

theorem reprOf_idem {r q : List Nat} (wf : WFr r q) {x : Nat} (hx : x < r.length) :
    reprOf r (reprOf r x) = reprOf r x :=
  reprOf_root (reprOf_fix wf hx)

theorem rank_le_reprOf {r q : List Nat} (wf : WFr r q) {x : Nat} (hx : x < r.length) :
    rankOf q x ≤ rankOf q (reprOf r x) := by
  refine parent_chain_induction wf (fun y => rankOf q y ≤ rankOf q (reprOf r y)) ?_ ?_ x hx
  · intro y hy hp
    rw [reprOf_root hp]
  · intro y hy hp ih
    rw [reprOf_step wf hy hp]
    exact le_trans (le_of_lt ((wf.2 y hy).2 hp)) ih

theorem rank_lt_reprOf {r q : List Nat} (wf : WFr r q) {x : Nat}
    (hx : x < r.length) (hp : parentOf r x ≠ x) :
    rankOf q x < rankOf q (reprOf r x) := by
  rw [reprOf_step wf hx hp]
  exact lt_of_lt_of_le ((wf.2 x hx).2 hp) (rank_le_reprOf wf (wf.2 x hx).1)

theorem reprOf_ne_self {r q : List Nat} (wf : WFr r q) {x : Nat}
    (hx : x < r.length) (hp : parentOf r x ≠ x) :
    reprOf r x ≠ x := by
  intro h
  have := rank_lt_reprOf wf hx hp
  rw [h] at this
  omega

/-! ## Point updates: well-formedness and representative preservation -/

theorem parentOf_set {r : List Nat} {a v i : Nat} (ha : a < r.length) :
    parentOf (r.set a v) i = if i = a then v else parentOf r i := by
  by_cases h : i = a
  · subst h
    rw [if_pos rfl]
    exact getD_set_eq ha
  · rw [if_neg h]
    exact getD_set_ne h

theorem WFr_set {r q : List Nat} (wf : WFr r q) {a v : Nat}
    (ha : a < r.length) (hv : v < r.length)
    (hrank : v ≠ a → rankOf q a < rankOf q v) :
    WFr (r.set a v) q := by
  constructor
  · simpa using wf.1
  · intro x hx
    have hx' : x < r.length := by simpa using hx
    by_cases h : x = a
    · subst h
      rw [parentOf_set ha, if_pos rfl]
      exact ⟨by simpa using hv, hrank⟩
    · rw [parentOf_set ha, if_neg h]
      have hwx := wf.2 x hx'
      exact ⟨by simpa using hwx.1, hwx.2⟩

/-- Redirecting a non-root node straight to its representative (one step of
path compression) preserves every representative. -/
theorem reprOf_set_repr {r q : List Nat} (wf : WFr r q) {a : Nat}
    (ha : a < r.length) (hp : parentOf r a ≠ a) :
    ∀ i, reprOf (r.set a (reprOf r a)) i = reprOf r i := by
  have hv : reprOf r a < r.length := reprOf_lt wf ha
  have hvne : reprOf r a ≠ a := reprOf_ne_self wf ha hp
  have hwf2 : WFr (r.set a (reprOf r a)) q :=
    WFr_set wf ha hv (fun _ => rank_lt_reprOf wf ha hp)
  intro i
  by_cases hi : i < r.length
  · refine parent_chain_induction wf
      (fun j => reprOf (r.set a (reprOf r a)) j = reprOf r j) ?_ ?_ i hi
    · intro j hj hfix
      have hja : j ≠ a := fun h => hp (h ▸ hfix)
      have hfix2 : parentOf (r.set a (reprOf r a)) j = j := by
        rw [parentOf_set ha, if_neg hja]; exact hfix
      rw [reprOf_root hfix2, reprOf_root hfix]
    · intro j hj hpj ih
      by_cases hja : j = a
      · subst hja
        have hpar : parentOf (r.set j (reprOf r j)) j = reprOf r j := by
          rw [parentOf_set ha, if_pos rfl]
        have hfix2 : parentOf (r.set j (reprOf r j)) (reprOf r j) = reprOf r j := by
          rw [parentOf_set ha, if_neg hvne]
          exact reprOf_fix wf hj
        have h1 : reprOf (r.set j (reprOf r j)) j
            = reprOf (r.set j (reprOf r j)) (parentOf (r.set j (reprOf r j)) j) := by
          refine reprOf_step hwf2 (by simpa using hj) ?_
          rw [hpar]; exact hvne
        rw [h1, hpar, reprOf_root hfix2]
      · have hpar : parentOf (r.set a (reprOf r a)) j = parentOf r j := by
          rw [parentOf_set ha, if_neg hja]
        have h1 : reprOf (r.set a (reprOf r a)) j
            = reprOf (r.set a (reprOf r a)) (parentOf r j) := by
          have hstep := reprOf_step hwf2 (x := j) (by simpa using hj)
            (by rw [hpar]; exact hpj)
          rwa [hpar] at hstep
        rw [h1, ih, ← reprOf_step wf hj hpj]
  · push_neg at hi
    rw [reprOf_of_ge (by simpa using hi), reprOf_of_ge hi]

/-! ## The full specification of the compressing find -/

theorem findAux_spec {q : List Nat} :
    ∀ (f : Nat) (r : List Nat) (x : Nat), WFr r q → x < r.length → measureGE r q x ≤ f →
      (findAux f r x).1 = reprOf r x ∧
      (findAux f r x).2.length = r.length ∧
      WFr (findAux f r x).2 q ∧
      (∀ i, reprOf (findAux f r x).2 i = reprOf r i) ∧
      (∀ i, parentOf r i = i → parentOf (findAux f r x).2 i = i) := by
  intro f
  induction f with
  | zero =>
    intro r x wf hx hm
    have hpos : 0 < measureGE r q x := measureGE_pos hx
    omega
  | succ f ih =>
    intro r x wf hx hm
    by_cases hp : parentOf r x = x
    · simp only [findAux, hp, if_pos rfl]
      exact ⟨(reprOf_root hp).symm, rfl, wf, fun _ => rfl, fun _ h => h⟩
    · have hplt := (wf.2 x hx).1
      have hm2 : measureGE r q (parentOf r x) ≤ f := by
        have := measureGE_parent_lt wf hx hp
        omega
      obtain ⟨h1, h2, h3, h4, h5⟩ := ih r (parentOf r x) wf hplt hm2
      have hres : findAux (f+1) r x =
          ((findAux f r (parentOf r x)).1,
           (findAux f r (parentOf r x)).2.set x (findAux f r (parentOf r x)).1) := by
        simp [findAux, hp]
      set p := findAux f r (parentOf r x) with hpdef
      have hx1 : p.1 = reprOf r x := by rw [h1, ← reprOf_step wf hx hp]
      have hxa : x < p.2.length := by rw [h2]; exact hx
      have hnonroot : parentOf p.2 x ≠ x := by
        intro hfix
        have hxx : reprOf p.2 x = x := reprOf_root hfix
        rw [h4 x] at hxx
        exact reprOf_ne_self wf hx hp hxx
      have hx2 : p.1 = reprOf p.2 x := by rw [hx1, (h4 x).symm]
      have hwfset : WFr (p.2.set x p.1) q := by
        rw [hx2]
        exact WFr_set h3 hxa (reprOf_lt h3 hxa) (fun _ => rank_lt_reprOf h3 hxa hnonroot)
      have hreprset : ∀ i, reprOf (p.2.set x p.1) i = reprOf p.2 i := by
        rw [hx2]
        exact reprOf_set_repr h3 hxa hnonroot
      rw [hres]
      refine ⟨hx1, ?_, hwfset, ?_, ?_⟩
      · simp [h2]
      · intro i
        rw [hreprset i, h4 i]
      · intro i hroot
        have hix : i ≠ x := fun h => hp (h ▸ hroot)
        rw [parentOf_set hxa, if_neg hix]
        exact h5 i hroot

/-! ## Linking two roots -/

theorem rankOf_set {q : List Nat} {a v y : Nat} (ha : a < q.length) :
    rankOf (q.set a v) y = if y = a then v else rankOf q y := by
  by_cases h : y = a
  · subst h
    rw [if_pos rfl]
    exact getD_set_eq ha
  · rw [if_neg h]
    exact getD_set_ne h

/-- Linking root `c` under root `p` when `rank c < rank p` keeps the arrays
well-formed (the rank array is unchanged). -/
theorem WFr_link_lt {r q : List Nat} (wf : WFr r q) {c p : Nat}
    (hc : c < r.length) (hp : p < r.length)
    (hrank : rankOf q c < rankOf q p) :
    WFr (r.set c p) q :=
  WFr_set wf hc hp (fun _ => hrank)

/-- Linking root `c` under root `p` on a rank tie, bumping `p`'s rank, keeps
the arrays well-formed. -/
theorem WFr_link_eq {r q : List Nat} (wf : WFr r q) {c p : Nat}
    (hc : c < r.length) (hp : p < r.length) (hcp : c ≠ p)
    (hproot : parentOf r p = p)
    (hrank : rankOf q c = rankOf q p) :
    WFr (r.set c p) (q.set p (rankOf q p + 1)) := by
  have hplen : p < q.length := by
    have := wf.1
    omega
  constructor
  · simp [wf.1]
  · intro x hx
    have hx' : x < r.length := by simpa using hx
    by_cases hxc : x = c
    · subst hxc
      rw [parentOf_set hc, if_pos rfl]
      refine ⟨by simpa using hp, fun _ => ?_⟩
      rw [rankOf_set hplen, if_neg hcp, rankOf_set hplen, if_pos rfl]
      omega
    · rw [parentOf_set hc, if_neg hxc]
      have hwx := wf.2 x hx'
      refine ⟨by simpa using hwx.1, fun hne => ?_⟩
      by_cases hxp : x = p
      · subst hxp
        exact absurd hproot hne
      · rw [rankOf_set hplen, if_neg hxp]
        by_cases htp : parentOf r x = p
        · rw [htp, rankOf_set hplen, if_pos rfl]
          have := hwx.2 hne
          rw [htp] at this
          omega
        · rw [rankOf_set hplen, if_neg htp]
          exact hwx.2 hne

/-- Characterization of representatives after linking root `c` under root
`p` (for any rank array `q2` witnessing well-formedness of the result). -/
theorem reprOf_link {r q q2 : List Nat} {c p : Nat} (wf : WFr r q)
    (wf2 : WFr (r.set c p) q2)
    (hc : c < r.length) (hcp : c ≠ p)
    (hcroot : parentOf r c = c) (hproot : parentOf r p = p) :
    ∀ i, reprOf (r.set c p) i = if reprOf r i = c then p else reprOf r i := by
  intro i
  by_cases hi : i < r.length
  · refine parent_chain_induction wf
      (fun j => reprOf (r.set c p) j = if reprOf r j = c then p else reprOf r j) ?_ ?_ i hi
    · intro j hj hfix
      rw [reprOf_root hfix]
      by_cases hjc : j = c
      · subst hjc
        rw [if_pos rfl]
        have hpar : parentOf (r.set j p) j = p := by
          rw [parentOf_set hc, if_pos rfl]
        have hfix2 : parentOf (r.set j p) p = p := by
          rw [parentOf_set hc, if_neg (Ne.symm hcp)]
          exact hproot
        have hstep2 : reprOf (r.set j p) j
            = reprOf (r.set j p) (parentOf (r.set j p) j) := by
          refine reprOf_step wf2 (by simpa using hj) ?_
          rw [hpar]
          exact Ne.symm hcp
        rw [hstep2, hpar, reprOf_root hfix2]
      · rw [if_neg hjc]
        have hfix2 : parentOf (r.set c p) j = j := by
          rw [parentOf_set hc, if_neg hjc]
          exact hfix
        exact reprOf_root hfix2
    · intro j hj hpj ih
      have hjc : j ≠ c := fun h => hpj (h ▸ hcroot)
      have hpar : parentOf (r.set c p) j = parentOf r j := by
        rw [parentOf_set hc, if_neg hjc]
      have hstep2 : reprOf (r.set c p) j = reprOf (r.set c p) (parentOf r j) := by
        have hs := reprOf_step wf2 (x := j) (by simpa using hj)
          (by rw [hpar]; exact hpj)
        rwa [hpar] at hs
      rw [hstep2, ih, reprOf_step wf hj hpj]
  · push_neg at hi
    have h1 : reprOf (r.set c p) i = i := reprOf_of_ge (by simpa using hi)
    have h2 : reprOf r i = i := reprOf_of_ge hi
    rw [h1, h2, if_neg (by omega)]

/-! ## Appending a fresh singleton (`Add`) -/

theorem parentOf_append {r : List Nat} (i : Nat) :
    parentOf (r ++ [r.length]) i = if i = r.length then r.length else parentOf r i := by
  by_cases hi : i = r.length
  · subst hi
    rw [if_pos rfl]
    exact getD_append_self
  · rw [if_neg hi]
    by_cases hlt : i < r.length
    · exact getD_append_lt hlt
    · have h1 : r.length ≤ i := by omega
      have h2 : (r ++ [r.length]).length ≤ i := by
        simp only [List.length_append, List.length_cons, List.length_nil]
        omega
      unfold parentOf
      rw [getD_of_ge h2, getD_of_ge h1]

theorem rankOf_append {q : List Nat} (i : Nat) : rankOf (q ++ [0]) i = rankOf q i := by
  by_cases hi : i = q.length
  · subst hi
    unfold rankOf
    rw [getD_append_self, getD_of_ge le_rfl]
  · by_cases hlt : i < q.length
    · exact getD_append_lt hlt
    · have h1 : q.length ≤ i := by omega
      have h2 : (q ++ [0]).length ≤ i := by
        simp only [List.length_append, List.length_cons, List.length_nil]
        omega
      unfold rankOf
      rw [getD_of_ge h2, getD_of_ge h1]

theorem WFr_append {r q : List Nat} (wf : WFr r q) :
    WFr (r ++ [r.length]) (q ++ [0]) := by
  constructor
  · simp [wf.1]
  · intro x hx
    have hx' : x < r.length + 1 := by simpa using hx
    by_cases hxl : x = r.length
    · subst hxl
      rw [parentOf_append, if_pos rfl]
      constructor
      · simp
      · intro h
        exact absurd rfl h
    · have hxlt : x < r.length := by omega
      rw [parentOf_append, if_neg hxl]
      have hwx := wf.2 x hxlt
      constructor
      · simp only [List.length_append, List.length_cons, List.length_nil]
        omega
      · intro h
        rw [rankOf_append, rankOf_append]
        exact hwx.2 h

theorem reprOf_append_old {r q : List Nat} (wf : WFr r q) :
    ∀ i, i < r.length → reprOf (r ++ [r.length]) i = reprOf r i := by
  intro i hi
  refine parent_chain_induction wf
    (fun j => reprOf (r ++ [r.length]) j = reprOf r j) ?_ ?_ i hi
  · intro j hj hfix
    have hjl : j ≠ r.length := by omega
    have hfix2 : parentOf (r ++ [r.length]) j = j := by
      rw [parentOf_append, if_neg hjl]
      exact hfix
    rw [reprOf_root hfix2, reprOf_root hfix]
  · intro j hj hpj ih
    have hjl : j ≠ r.length := by omega
    have hpar : parentOf (r ++ [r.length]) j = parentOf r j := by
      rw [parentOf_append, if_neg hjl]
    have hstep2 : reprOf (r ++ [r.length]) j = reprOf (r ++ [r.length]) (parentOf r j) := by
      have hs := reprOf_step (WFr_append wf) (x := j)
        (by simp only [List.length_append, List.length_cons, List.length_nil]; omega)
        (by rw [hpar]; exact hpj)
      rwa [hpar] at hs
    rw [hstep2, ih, reprOf_step wf hj hpj]

theorem reprOf_append_new {r : List Nat} :
    reprOf (r ++ [r.length]) r.length = r.length :=
  reprOf_root (by rw [parentOf_append, if_pos rfl])

/-! ## Full specification of `Union` -/

theorem unionArrays_spec {r q : List Nat} (wf : WFr r q) {x y : Nat}
    (hx : x < r.length) (hy : y < r.length) :
    WFr (unionArrays r q x y).1 (unionArrays r q x y).2 ∧
    (unionArrays r q x y).1.length = r.length ∧
    (unionArrays r q x y).2.length = q.length ∧
    reprOf (unionArrays r q x y).1 x = reprOf (unionArrays r q x y).1 y ∧
    (reprOf r x = reprOf r y →
      ∀ i, reprOf (unionArrays r q x y).1 i = reprOf r i) ∧
    (reprOf r x ≠ reprOf r y →
      ∃ c p2,
        (c = reprOf r x ∧ p2 = reprOf r y ∨ c = reprOf r y ∧ p2 = reprOf r x) ∧
        c ≠ p2 ∧
        ∀ i, reprOf (unionArrays r q x y).1 i
          = if reprOf r i = c then p2 else reprOf r i) := by
  classical
  rcases h1 : findAux r.length r x with ⟨rx, r1⟩
  have s1 := findAux_spec r.length r x wf hx (measureGE_le r q x)
  rw [h1] at s1
  obtain ⟨e1, l1, w1, p1, rt1⟩ := s1
  dsimp only at e1 l1 w1 p1 rt1
  have hylen : y < r1.length := by rw [l1]; exact hy
  rcases h2 : findAux r1.length r1 y with ⟨ry, r2⟩
  have s2 := findAux_spec r1.length r1 y w1 hylen (measureGE_le r1 q y)
  rw [h2] at s2
  obtain ⟨e2, l2, w2, p2, rt2⟩ := s2
  dsimp only at e2 l2 w2 p2 rt2
  have e2' : ry = reprOf r y := by rw [e2, p1 y]
  have pres : ∀ i, reprOf r2 i = reprOf r i := fun i => by rw [p2 i, p1 i]
  have l2' : r2.length = r.length := by rw [l2, l1]
  have rt : ∀ i, parentOf r i = i → parentOf r2 i = i := fun i h => rt2 i (rt1 i h)
  subst e1
  subst e2'
  have hRXlt : reprOf r x < r.length := reprOf_lt wf hx
  have hRYlt : reprOf r y < r.length := reprOf_lt wf hy
  have hRXlt2 : reprOf r x < r2.length := by omega
  have hRYlt2 : reprOf r y < r2.length := by omega
  have hRXroot : parentOf r2 (reprOf r x) = reprOf r x := rt _ (reprOf_fix wf hx)
  have hRYroot : parentOf r2 (reprOf r y) = reprOf r y := rt _ (reprOf_fix wf hy)
  have hun : unionArrays r q x y =
      (if reprOf r x = reprOf r y then (r2, q)
       else if rankOf q (reprOf r x) > rankOf q (reprOf r y) then
         (r2.set (reprOf r y) (reprOf r x), q)
       else if rankOf q (reprOf r x) < rankOf q (reprOf r y) then
         (r2.set (reprOf r x) (reprOf r y), q)
       else
         (r2.set (reprOf r y) (reprOf r x),
          q.set (reprOf r x) (rankOf q (reprOf r x) + 1))) := by
    simp only [unionArrays, h1]
    rw [h2]
  by_cases hrr : reprOf r x = reprOf r y
  · rw [hun, if_pos hrr]
    dsimp only
    refine ⟨w2, l2', rfl, ?_, fun _ => pres, fun h => absurd hrr h⟩
    rw [pres x, pres y]
    exact hrr
  · rw [hun, if_neg hrr]
    by_cases hgt : rankOf q (reprOf r x) > rankOf q (reprOf r y)
    · rw [if_pos hgt]
      dsimp only
      have wfnew : WFr (r2.set (reprOf r y) (reprOf r x)) q :=
        WFr_link_lt w2 hRYlt2 hRXlt2 (by exact hgt)
      have hchar := reprOf_link w2 wfnew hRYlt2 (Ne.symm hrr) hRYroot hRXroot
      have hchar' : ∀ i, reprOf (r2.set (reprOf r y) (reprOf r x)) i
          = if reprOf r i = reprOf r y then reprOf r x else reprOf r i := by
        intro i
        rw [hchar i, pres i]
      refine ⟨wfnew, by simpa using l2', rfl, ?_, fun h => absurd h hrr, fun _ => ?_⟩
      · rw [hchar' x, hchar' y, if_neg hrr, if_pos rfl]
      · exact ⟨reprOf r y, reprOf r x, .inr ⟨rfl, rfl⟩, Ne.symm hrr, hchar'⟩
    · rw [if_neg hgt]
      by_cases hlt : rankOf q (reprOf r x) < rankOf q (reprOf r y)
      · rw [if_pos hlt]
        dsimp only
        have wfnew : WFr (r2.set (reprOf r x) (reprOf r y)) q :=
          WFr_link_lt w2 hRXlt2 hRYlt2 (by exact hlt)
        have hchar := reprOf_link w2 wfnew hRXlt2 hrr hRXroot hRYroot
        have hchar' : ∀ i, reprOf (r2.set (reprOf r x) (reprOf r y)) i
            = if reprOf r i = reprOf r x then reprOf r y else reprOf r i := by
          intro i
          rw [hchar i, pres i]
        refine ⟨wfnew, by simpa using l2', rfl, ?_, fun h => absurd h hrr, fun _ => ?_⟩
        · rw [hchar' x, hchar' y, if_pos rfl, if_neg (fun h => hrr (by rw [h]))]
        · exact ⟨reprOf r x, reprOf r y, .inl ⟨rfl, rfl⟩, hrr, hchar'⟩
      · rw [if_neg hlt]
        dsimp only
        have heq : rankOf q (reprOf r y) = rankOf q (reprOf r x) := by omega
        have wfnew : WFr (r2.set (reprOf r y) (reprOf r x))
            (q.set (reprOf r x) (rankOf q (reprOf r x) + 1)) :=
          WFr_link_eq w2 hRYlt2 hRXlt2 (Ne.symm hrr) hRXroot heq
        have hchar := reprOf_link w2 wfnew hRYlt2 (Ne.symm hrr) hRYroot hRXroot
        have hchar' : ∀ i, reprOf (r2.set (reprOf r y) (reprOf r x)) i
            = if reprOf r i = reprOf r y then reprOf r x else reprOf r i := by
          intro i
          rw [hchar i, pres i]
        refine ⟨wfnew, by simpa using l2', by simp, ?_, fun h => absurd h hrr, fun _ => ?_⟩
        · rw [hchar' x, hchar' y, if_neg hrr, if_pos rfl]
        · exact ⟨reprOf r y, reprOf r x, .inr ⟨rfl, rfl⟩, Ne.symm hrr, hchar'⟩

/-! ## Lookup-table lemmas -/

theorem lookupKey_upsert_self {α β : Type} [DecidableEq α] (l : List (α × β)) (k : α) (v : β) :
    lookupKey (upsertKey l k v) k = some v := by
  induction l with
  | nil => simp [upsertKey, lookupKey]
  | cons hd tl ih =>
    by_cases h : hd.1 = k
    · cases hd
      simp_all [upsertKey, lookupKey]
    · cases hd
      simp_all [upsertKey, lookupKey]

theorem lookupKey_upsert_other {α β : Type} [DecidableEq α] (l : List (α × β)) {k k2 : α}
    (v : β) (h : k2 ≠ k) :
    lookupKey (upsertKey l k v) k2 = lookupKey l k2 := by
  induction l with
  | nil =>
    show (if k = k2 then some v else none) = none
    rw [if_neg (Ne.symm h)]
  | cons hd tl ih =>
    cases hd with
    | mk k1 v1 =>
      simp only [upsertKey, lookupKey]
      by_cases h1 : k1 = k
      · subst h1
        rw [if_pos rfl]
        simp only [lookupKey]
        rw [if_neg (Ne.symm h), if_neg (Ne.symm h)]
      · rw [if_neg h1]
        simp only [lookupKey]
        rw [ih]

theorem mem_upsertKey {α β : Type} [DecidableEq α] {l : List (α × β)} {k : α} {v : β}
    {p : α × β} (hp : p ∈ upsertKey l k v) : p ∈ l ∨ p = (k, v) := by
  induction l with
  | nil => simpa [upsertKey] using hp
  | cons hd tl ih =>
    cases hd with
    | mk k1 v1 =>
      by_cases h1 : k1 = k
      · subst h1
        have e : upsertKey ((k1, v1) :: tl) k1 v = (k1, v) :: tl := by
          simp [upsertKey]
        rw [e] at hp
        rcases List.mem_cons.mp hp with h | h
        · exact .inr h
        · exact .inl (List.mem_cons_of_mem _ h)
      · have e : upsertKey ((k1, v1) :: tl) k v = (k1, v1) :: upsertKey tl k v := by
          simp only [upsertKey, if_neg h1]
        rw [e] at hp
        rcases List.mem_cons.mp hp with h | h
        · exact .inl (by simp [h])
        · rcases ih h with h2 | h2
          · exact .inl (List.mem_cons_of_mem _ h2)
          · exact .inr h2

theorem lookupKey_mem {α β : Type} [DecidableEq α] {l : List (α × β)} {k : α} {v : β}
    (h : lookupKey l k = some v) : (k, v) ∈ l := by
  induction l with
  | nil => simp [lookupKey] at h
  | cons hd tl ih =>
    cases hd with
    | mk k1 v1 =>
      simp only [lookupKey] at h
      by_cases h1 : k1 = k
      · subst h1
        rw [if_pos rfl] at h
        cases Option.some.inj h
        exact List.mem_cons_self _ _
      · rw [if_neg h1] at h
        exact List.mem_cons_of_mem _ (ih h)

/-! ## Full specification of `Add` -/

theorem add_spec {d : DSU} (wf : d.WF) (lbl : String) :
    (d.add lbl).1 = d.root.length ∧
    (d.add lbl).2.root.length = d.root.length + 1 ∧
    (d.add lbl).2.WF ∧
    (∀ i, i < d.root.length → reprOf (d.add lbl).2.root i = reprOf d.root i) ∧
    reprOf (d.add lbl).2.root d.root.length = d.root.length ∧
    lookupKey (d.add lbl).2.labels lbl = some d.root.length ∧
    (∀ l2, l2 ≠ lbl → lookupKey (d.add lbl).2.labels l2 = lookupKey d.labels l2) := by
  have hroot : (d.add lbl).2.root = d.root ++ [d.root.length] := rfl
  have hrank : (d.add lbl).2.rank = d.rank ++ [0] := rfl
  have hidx : (d.add lbl).1 = d.root.length := by
    simp [DSU.add]
  have hwfr : WFr (d.add lbl).2.root (d.add lbl).2.rank := by
    rw [hroot, hrank]
    exact WFr_append wf.1
  refine ⟨hidx, by simp [hroot], ⟨hwfr, ?_⟩, ?_, ?_, ?_, ?_⟩
  · intro p hp
    have hp2 : p ∈ upsertKey d.labels lbl ((d.add lbl).1) := by
      simpa [DSU.add] using hp
    rcases mem_upsertKey hp2 with h | h
    · have := wf.2 p h
      simp only [hroot, List.length_append, List.length_cons, List.length_nil]
      omega
    · subst h
      simp only [hidx, hroot, List.length_append, List.length_cons, List.length_nil]
      omega
  · intro i hi
    rw [hroot]
    exact reprOf_append_old wf.1 i hi
  · rw [hroot]
    exact reprOf_append_new
  · show lookupKey (upsertKey d.labels lbl ((d.add lbl).1)) lbl = some d.root.length
    rw [hidx]
    exact lookupKey_upsert_self d.labels lbl d.root.length
  · intro l2 hl2
    show lookupKey (upsertKey d.labels lbl ((d.add lbl).1)) l2 = lookupKey d.labels l2
    exact lookupKey_upsert_other d.labels _ hl2

/-! ## `CountSets` counts distinct representatives -/

theorem countStep_fold {r q : List Nat} :
    ∀ (l : List Nat) (s : List Nat) (rc : List Nat),
      WFr rc q → rc.length = r.length → (∀ i, reprOf rc i = reprOf r i) →
      s.Nodup → (∀ i ∈ l, i < r.length) →
      (l.foldl countStep (s, rc)).1.Nodup ∧
      (l.foldl countStep (s, rc)).1.toFinset
        = s.toFinset ∪ (l.map (reprOf r)).toFinset := by
  intro l
  induction l with
  | nil =>
    intro s rc _ _ _ hnd _
    exact ⟨hnd, by simp⟩
  | cons i l ih =>
    intro s rc wfc hlen hrepr hnd hmem
    have hi : i < rc.length := by
      rw [hlen]
      exact hmem i (List.mem_cons_self i l)
    rcases hf : findAux rc.length rc i with ⟨rt, rc2⟩
    have sp := findAux_spec rc.length rc i wfc hi (measureGE_le rc q i)
    rw [hf] at sp
    obtain ⟨f1, f2, f3, f4, _⟩ := sp
    dsimp only at f1 f2 f3 f4
    have hrt : rt = reprOf r i := by rw [f1, hrepr i]
    have hstep : countStep (s, rc) i = (if rt ∈ s then s else rt :: s, rc2) := by
      simp only [countStep, hf]
    have hnd2 : (if rt ∈ s then s else rt :: s).Nodup := by
      by_cases hrs : rt ∈ s
      · rw [if_pos hrs]; exact hnd
      · rw [if_neg hrs]; exact List.Nodup.cons hrs hnd
    have hts : (if rt ∈ s then s else rt :: s).toFinset = insert rt s.toFinset := by
      by_cases hrs : rt ∈ s
      · rw [if_pos hrs]
        exact (Finset.insert_eq_self.mpr (List.mem_toFinset.mpr hrs)).symm
      · rw [if_neg hrs]
        simp
    have hrec := ih (if rt ∈ s then s else rt :: s) rc2 f3
      (by rw [f2, hlen]) (fun j => by rw [f4 j, hrepr j]) hnd2
      (fun j hj => hmem j (List.mem_cons_of_mem _ hj))
    rw [List.foldl_cons, hstep]
    refine ⟨hrec.1, ?_⟩
    rw [hrec.2, hts, hrt]
    rw [List.map_cons, List.toFinset_cons]
    rw [Finset.insert_union, Finset.union_insert]

theorem toFinset_map_range (f : Nat → Nat) (n : Nat) :
    (List.map f (List.range n)).toFinset = (Finset.range n).image f := by
  ext t
  simp [List.mem_map, List.mem_range, Finset.mem_image, Finset.mem_range]

theorem countSets_eq_card {d : DSU} (wf : WFr d.root d.rank) :
    d.countSets = ((Finset.range d.root.length).image (reprOf d.root)).card := by
  obtain ⟨hnd, hset⟩ := countStep_fold (List.range d.root.length) [] d.root wf rfl
    (fun _ => rfl) List.nodup_nil (fun i hi => List.mem_range.mp hi)
  unfold DSU.countSets
  rw [← List.toFinset_card_of_nodup hnd, hset]
  rw [List.toFinset_nil, Finset.empty_union, toFinset_map_range]

/-- Cardinality change of the representative image under a collapse map
`c ↦ p2` where both `c` and `p2` are in the image and differ. -/
theorem card_image_collapse {n : Nat} {f : Nat → Nat} {c p2 : Nat}
    (hc : c ∈ (Finset.range n).image f) (hp : p2 ∈ (Finset.range n).image f)
    (hne : c ≠ p2) :
    ((Finset.range n).image (fun i => if f i = c then p2 else f i)).card
      = ((Finset.range n).image f).card - 1 := by
  classical
  have himg : (Finset.range n).image (fun i => if f i = c then p2 else f i)
      = ((Finset.range n).image f).erase c := by
    ext t
    simp only [Finset.mem_image, Finset.mem_erase]
    constructor
    · rintro ⟨i, hi, hit⟩
      by_cases hfi : f i = c
      · rw [if_pos hfi] at hit
        subst hit
        rcases Finset.mem_image.mp hp with ⟨j, hj, hjt⟩
        exact ⟨Ne.symm hne, ⟨j, hj, hjt⟩⟩
      · rw [if_neg hfi] at hit
        subst hit
        exact ⟨hfi, ⟨i, hi, rfl⟩⟩
    · rintro ⟨htc, i, hi, hit⟩
      by_cases hfi : f i = c
      · rw [← hit] at htc
        exact absurd hfi htc
      · exact ⟨i, hi, by rw [if_neg hfi]; exact hit⟩
  rw [himg, Finset.card_erase_of_mem hc]

/-! ## How the operations change `CountSets` -/

theorem countSets_add {d : DSU} (wf : d.WF) (lbl : String) :
    ((d.add lbl).2).countSets = d.countSets + 1 := by
  classical
  obtain ⟨_, hlen, hwf, hpres, hnew, _, _⟩ := add_spec wf lbl
  rw [countSets_eq_card hwf.1, countSets_eq_card wf.1, hlen]
  rw [Finset.range_succ, Finset.image_insert, hnew]
  have hcong : (Finset.range d.root.length).image (reprOf (d.add lbl).2.root)
      = (Finset.range d.root.length).image (reprOf d.root) := by
    refine Finset.image_congr ?_
    intro i hi
    exact hpres i (Finset.mem_range.mp hi)
  rw [hcong]
  refine Finset.card_insert_of_not_mem ?_
  intro hmem
  rcases Finset.mem_image.mp hmem with ⟨i, hi, hrep⟩
  have := reprOf_lt wf.1 (Finset.mem_range.mp hi)
  omega

theorem union_WF {d : DSU} (wf : d.WF) {x y : Nat}
    (hx : x < d.root.length) (hy : y < d.root.length) :
    (d.union x y).WF := by
  obtain ⟨w, hlen, _, _, _, _⟩ := unionArrays_spec wf.1 hx hy
  refine ⟨w, ?_⟩
  intro p hp
  have hr : (d.union x y).root = (unionArrays d.root d.rank x y).1 := rfl
  rw [hr, hlen]
  exact wf.2 p hp

theorem union_root_length {d : DSU} (wf : WFr d.root d.rank) {x y : Nat}
    (hx : x < d.root.length) (hy : y < d.root.length) :
    (d.union x y).root.length = d.root.length :=
  (unionArrays_spec wf hx hy).2.1

theorem countSets_union_noop {d : DSU} (wf : WFr d.root d.rank) {x y : Nat}
    (hx : x < d.root.length) (hy : y < d.root.length)
    (heq : reprOf d.root x = reprOf d.root y) :
    (d.union x y).countSets = d.countSets := by
  obtain ⟨w, hlen, _, _, hnoop, _⟩ := unionArrays_spec wf hx hy
  rw [countSets_eq_card w, countSets_eq_card wf]
  have hroot : (d.union x y).root = (unionArrays d.root d.rank x y).1 := rfl
  rw [hroot] at *
  rw [hlen]
  refine congrArg Finset.card (Finset.image_congr ?_)
  intro i _
  exact hnoop heq i

theorem countSets_union_succ {d : DSU} (wf : WFr d.root d.rank) {x y : Nat}
    (hx : x < d.root.length) (hy : y < d.root.length)
    (hne : reprOf d.root x ≠ reprOf d.root y) :
    (d.union x y).countSets + 1 = d.countSets := by
  classical
  obtain ⟨w, hlen, _, _, _, hsucc⟩ := unionArrays_spec wf hx hy
  obtain ⟨c, p2, hcp, hcpne, hchar⟩ := hsucc hne
  rw [countSets_eq_card w, countSets_eq_card wf]
  have hroot : (d.union x y).root = (unionArrays d.root d.rank x y).1 := rfl
  rw [hroot] at *
  rw [hlen]
  have hcmem : c ∈ (Finset.range d.root.length).image (reprOf d.root) := by
    rcases hcp with ⟨hc, _⟩ | ⟨hc, _⟩
    · exact Finset.mem_image.mpr ⟨x, Finset.mem_range.mpr hx, hc.symm⟩
    · exact Finset.mem_image.mpr ⟨y, Finset.mem_range.mpr hy, hc.symm⟩
  have hpmem : p2 ∈ (Finset.range d.root.length).image (reprOf d.root) := by
    rcases hcp with ⟨_, hp⟩ | ⟨_, hp⟩
    · exact Finset.mem_image.mpr ⟨y, Finset.mem_range.mpr hy, hp.symm⟩
    · exact Finset.mem_image.mpr ⟨x, Finset.mem_range.mpr hx, hp.symm⟩
  have hcong : (Finset.range d.root.length).image (reprOf (unionArrays d.root d.rank x y).1)
      = (Finset.range d.root.length).image
          (fun i => if reprOf d.root i = c then p2 else reprOf d.root i) := by
    refine Finset.image_congr ?_
    intro i _
    exact hchar i
  rw [hcong, card_image_collapse hcmem hpmem hcpne]
  have hpos : 0 < ((Finset.range d.root.length).image (reprOf d.root)).card :=
    Finset.card_pos.mpr ⟨c, hcmem⟩
  omega

/-- The inductive invariant behind the `CountSets` bookkeeping identity. -/
theorem countSets_runOps : ∀ (ops : List DSUOp) (d : DSU), d.WF → ValidOps d ops →
    (runOps d ops).countSets + numSuccUnions d ops = d.countSets + numAdds ops := by
  intro ops
  induction ops with
  | nil =>
    intro d _ _
    simp [runOps, numSuccUnions, numAdds]
  | cons op ops ih =>
    intro d wf hv
    cases op with
    | addOp lbl =>
      have hwf2 : ((d.add lbl).2).WF := (add_spec wf lbl).2.2.1
      have hv2 : ValidOps ((d.add lbl).2) ops := hv
      have := ih ((d.add lbl).2) hwf2 hv2
      have hcs := countSets_add wf lbl
      simp only [runOps, applyOp, numSuccUnions, numAdds]
      omega
    | unionOp x y =>
      obtain ⟨hx, hy, hv2⟩ := hv
      have hwf2 : (d.union x y).WF := union_WF wf hx hy
      have hrun := ih (d.union x y) hwf2 hv2
      simp only [runOps, applyOp, numSuccUnions, numAdds]
      by_cases heq : reprOf d.root x = reprOf d.root y
      · rw [if_pos heq]
        have := countSets_union_noop wf.1 hx hy heq
        omega
      · rw [if_neg heq]
        have := countSets_union_succ wf.1 hx hy heq
        omega

/-! ## `Connected`, `FindOrCreate` and preservation under union sequences -/

theorem connected_eq {d : DSU} (wf : WFr d.root d.rank) {x y : Nat}
    (hx : x < d.root.length) (hy : y < d.root.length) :
    (d.connected x y).1 = true ↔ reprOf d.root x = reprOf d.root y := by
  rcases h1 : findAux d.root.length d.root x with ⟨rx, r1⟩
  have s1 := findAux_spec d.root.length d.root x wf hx (measureGE_le d.root d.rank x)
  rw [h1] at s1
  obtain ⟨e1, l1, w1, p1, _⟩ := s1
  dsimp only at e1 l1 w1 p1
  have hy1 : y < r1.length := by rw [l1]; exact hy
  rcases h2 : findAux r1.length r1 y with ⟨ry, r2⟩
  have s2 := findAux_spec r1.length r1 y w1 hy1 (measureGE_le r1 d.rank y)
  rw [h2] at s2
  obtain ⟨e2, _, _, _, _⟩ := s2
  dsimp only at e2
  have hconn : (d.connected x y).1 = (rx == ry) := by
    simp only [DSU.connected, DSU.find, h1]
    rw [h2]
  rw [hconn, e1, e2, p1 y]
  simp [beq_iff_eq]

theorem findOrCreate_spec {d : DSU} (wf : d.WF) (lbl : String) :
    (d.findOrCreate lbl).2.WF ∧
    d.root.length ≤ (d.findOrCreate lbl).2.root.length ∧
    (d.findOrCreate lbl).1 < (d.findOrCreate lbl).2.root.length ∧
    (∃ idx, lookupKey (d.findOrCreate lbl).2.labels lbl = some idx ∧
      reprOf (d.findOrCreate lbl).2.root idx
        = reprOf (d.findOrCreate lbl).2.root (d.findOrCreate lbl).1) ∧
    (∀ i, i < d.root.length →
      reprOf (d.findOrCreate lbl).2.root i = reprOf d.root i) ∧
    (∀ l2, lookupKey d.labels l2 ≠ none →
      lookupKey (d.findOrCreate lbl).2.labels l2 = lookupKey d.labels l2) := by
  rcases hl : lookupKey d.labels lbl with _ | idx
  · -- unseen label: Add branch
    have hfc : d.findOrCreate lbl = d.add lbl := by
      simp only [DSU.findOrCreate, hl]
    obtain ⟨a1, a2, a3, a4, a5, a6, a7⟩ := add_spec wf lbl
    rw [hfc]
    refine ⟨a3, by omega, by omega, ⟨d.root.length, a6, ?_⟩, a4, ?_⟩
    · rw [a1]
    · intro l2 hne
      refine a7 l2 ?_
      intro heq
      rw [heq] at hne
      exact hne hl
  · -- known label: Find branch
    have hidx : idx < d.root.length := wf.2 (lbl, idx) (lookupKey_mem hl)
    have hfc : d.findOrCreate lbl = d.find idx := by
      simp only [DSU.findOrCreate, hl]
    rcases h1 : findAux d.root.length d.root idx with ⟨rx, r1⟩
    have s1 := findAux_spec d.root.length d.root idx wf.1 hidx
      (measureGE_le d.root d.rank idx)
    rw [h1] at s1
    obtain ⟨e1, l1, w1, p1, _⟩ := s1
    dsimp only at e1 l1 w1 p1
    have hfind : d.find idx = (rx, { d with root := r1 }) := by
      simp only [DSU.find, h1]
    rw [hfc, hfind]
    dsimp only
    have hrepr1 : reprOf r1 idx = reprOf d.root idx := p1 idx
    have hrx : rx = reprOf d.root idx := e1
    have hrxlt : rx < r1.length := by
      rw [hrx, l1]
      exact reprOf_lt wf.1 hidx
    refine ⟨⟨w1, ?_⟩, by omega, hrxlt, ⟨idx, hl, ?_⟩, fun i _ => p1 i, fun l2 _ => rfl⟩
    · intro p hp
      rw [l1]
      exact wf.2 p hp
    · rw [hrepr1, hrx, p1 (reprOf d.root idx)]
      exact (reprOf_idem wf.1 hidx).symm

theorem union_pres_eq {d : DSU} (wf : WFr d.root d.rank) {x y : Nat}
    (hx : x < d.root.length) (hy : y < d.root.length) {i j : Nat}
    (hij : reprOf d.root i = reprOf d.root j) :
    reprOf (d.union x y).root i = reprOf (d.union x y).root j := by
  obtain ⟨_, _, _, _, hnoop, hsucc⟩ := unionArrays_spec wf hx hy
  have hroot : (d.union x y).root = (unionArrays d.root d.rank x y).1 := rfl
  rw [hroot]
  by_cases heq : reprOf d.root x = reprOf d.root y
  · rw [hnoop heq i, hnoop heq j, hij]
  · obtain ⟨c, p2, _, _, hchar⟩ := hsucc heq
    rw [hchar i, hchar j, hij]

theorem union_merges {d : DSU} (wf : WFr d.root d.rank) {x y : Nat}
    (hx : x < d.root.length) (hy : y < d.root.length) :
    reprOf (d.union x y).root x = reprOf (d.union x y).root y :=
  (unionArrays_spec wf hx hy).2.2.2.1

theorem union_labels {d : DSU} {x y : Nat} :
    (d.union x y).labels = d.labels := rfl

theorem runUnions_pres : ∀ (ps : List (Nat × Nat)) (d : DSU), d.WF → ValidUnions d ps →
    (runUnions d ps).WF ∧
    (runUnions d ps).labels = d.labels ∧
    (runUnions d ps).root.length = d.root.length ∧
    (∀ i j, reprOf d.root i = reprOf d.root j →
      reprOf (runUnions d ps).root i = reprOf (runUnions d ps).root j) := by
  intro ps
  induction ps with
  | nil =>
    intro d wf _
    exact ⟨wf, rfl, rfl, fun _ _ h => h⟩
  | cons p ps ih =>
    intro d wf hv
    obtain ⟨hx, hy, hv2⟩ := hv
    have hwf2 := union_WF wf hx hy
    obtain ⟨r1, r2, r3, r4⟩ := ih (d.union p.1 p.2) hwf2 hv2
    simp only [runUnions]
    refine ⟨r1, by rw [r2, union_labels], ?_, ?_⟩
    · rw [r3, union_root_length wf.1 hx hy]
    · intro i j hij
      exact r4 i j (union_pres_eq wf.1 hx hy hij)

/-! ## Claim theorems for the clustering store and its persistence -/

/-- C5: persistence round-trip.  Saving a clustering store and loading it
back yields a store with the same `size()`, the same `countSets()`, and the
same `connected(i, j)` answer for every pair of indices of previously-added
labels. -/
theorem C5_persistence_round_trip (d : DSU) :
    (fileLoad (some (fileSave d))).size = d.size ∧
    (fileLoad (some (fileSave d))).countSets = d.countSets ∧
    (∀ la lb i j, lookupKey d.labels la = some i → lookupKey d.labels lb = some j →
      ((fileLoad (some (fileSave d))).connected i j).1 = (d.connected i j).1) :=
  ⟨rfl, rfl, fun _ _ _ _ _ _ => rfl⟩

theorem C5_witness :
    (fileLoad (some (fileSave ((emptyDSU.add "a").2)))).size
        = ((emptyDSU.add "a").2).size ∧
    ((fileLoad (some (fileSave ((emptyDSU.add "a").2)))).connected 0 0).1
        = (((emptyDSU.add "a").2).connected 0 0).1 :=
  ⟨(C5_persistence_round_trip ((emptyDSU.add "a").2)).1,
   (C5_persistence_round_trip ((emptyDSU.add "a").2)).2.2 "a" "a" 0 0 (by decide) (by decide)⟩

/-- C4 (code bug): the serialized triple is *not* used to rebuild the
reverse lookup table on load.  `UnmarshalJSON` leaves `labelIndex` empty, so
after any save/load round trip `FindLabel` answers the empty string at every
index — including the root index of every previously-stored label — while
the claim (and the spec) require the pre-save non-empty answer.  The second
conjunct shows the pre-save store resolving label "a" correctly, which the
loaded store no longer does. -/
theorem C4_findLabel_lost_after_load :
    (∀ (d : DSU) (idx : Nat), (fileLoad (some (fileSave d))).findLabel idx = "") ∧
    ((emptyDSU.add "a").2.findLabel 0 = "a" ∧
      (fileLoad (some (fileSave ((emptyDSU.add "a").2)))).findLabel 0 = "") := by
  refine ⟨fun d idx => rfl, by decide, by decide⟩

/-- C6: executed sequentially from an empty clustering store, `countSets()`
equals the number of labels added minus the number of successful
(non-no-op) unions, where a union is a no-op exactly when its two arguments
already share a root at the moment it runs (that is the sense in which
`numSuccUnions` counts). -/
theorem C6_countSets_bookkeeping (ops : List DSUOp)
    (hvalid : ValidOps emptyDSU ops) :
    (runOps emptyDSU ops).countSets
      = numAdds ops - numSuccUnions emptyDSU ops ∧
    numSuccUnions emptyDSU ops ≤ numAdds ops := by
  have hwf : emptyDSU.WF := by
    refine ⟨⟨rfl, fun x hx => ?_⟩, fun p hp => ?_⟩
    · simp [emptyDSU] at hx
    · simp [emptyDSU] at hp
  have h := countSets_runOps ops emptyDSU hwf hvalid
  have h0 : emptyDSU.countSets = 0 := rfl
  omega

theorem C6_witness :
    (runOps emptyDSU
        [DSUOp.addOp "a", DSUOp.addOp "b", DSUOp.unionOp 0 1]).countSets
      = numAdds [DSUOp.addOp "a", DSUOp.addOp "b", DSUOp.unionOp 0 1]
        - numSuccUnions emptyDSU [DSUOp.addOp "a", DSUOp.addOp "b", DSUOp.unionOp 0 1] :=
  (C6_countSets_bookkeeping [DSUOp.addOp "a", DSUOp.addOp "b", DSUOp.unionOp 0 1]
    (by simp only [ValidOps, applyOp]; decide)).1

/-- C7: after `union(findOrCreate(A), findOrCreate(B))` the store reports
`connected(idx(A), idx(B)) = true`, and this stays true after any further
sequence of unions at valid indices: connectivity is monotone. -/
theorem C7_connected_monotone (d0 : DSU) (A B : String) (wf : d0.WF)
    (ps : List (Nat × Nat))
    (ia : Nat) (d1 : DSU) (h1 : d0.findOrCreate A = (ia, d1))
    (ib : Nat) (d2 : DSU) (h2 : d1.findOrCreate B = (ib, d2))
    (hvalid : ValidUnions (d2.union ia ib) ps)
    (iA iB : Nat)
    (hA : lookupKey (runUnions (d2.union ia ib) ps).labels A = some iA)
    (hB : lookupKey (runUnions (d2.union ia ib) ps).labels B = some iB) :
    ((runUnions (d2.union ia ib) ps).connected iA iB).1 = true := by
  have s1 := findOrCreate_spec wf A
  rw [h1] at s1
  dsimp only at s1
  obtain ⟨wf1, hlen01, hia1, ⟨idxA, hlA, hrA⟩, _, _⟩ := s1
  have s2 := findOrCreate_spec wf1 B
  rw [h2] at s2
  dsimp only at s2
  obtain ⟨wf2, hlen12, hib2, ⟨idxB, hlB, hrB⟩, pres2, presLook2⟩ := s2
  have hidxA1 : idxA < d1.root.length := wf1.2 (A, idxA) (lookupKey_mem hlA)
  have hlA2 : lookupKey d2.labels A = some idxA := by
    rw [presLook2 A (by rw [hlA]; exact fun h => Option.noConfusion h), hlA]
  have hidxA2 : idxA < d2.root.length := wf2.2 (A, idxA) (lookupKey_mem hlA2)
  have hidxB2 : idxB < d2.root.length := wf2.2 (B, idxB) (lookupKey_mem hlB)
  have hia2 : ia < d2.root.length := by omega
  have hrA2 : reprOf d2.root idxA = reprOf d2.root ia := by
    rw [pres2 idxA hidxA1, pres2 ia hia1, hrA]
  have hwf3 := union_WF wf2 hia2 hib2
  have hm : reprOf (d2.union ia ib).root ia = reprOf (d2.union ia ib).root ib :=
    union_merges wf2.1 hia2 hib2
  have hA3 : reprOf (d2.union ia ib).root idxA = reprOf (d2.union ia ib).root ia :=
    union_pres_eq wf2.1 hia2 hib2 hrA2
  have hB3 : reprOf (d2.union ia ib).root idxB = reprOf (d2.union ia ib).root ib :=
    union_pres_eq wf2.1 hia2 hib2 hrB
  have heq3 : reprOf (d2.union ia ib).root idxA = reprOf (d2.union ia ib).root idxB := by
    rw [hA3, hm, ← hB3]
  obtain ⟨wfF, labF, lenF, presF⟩ := runUnions_pres ps (d2.union ia ib) hwf3 hvalid
  have heqF := presF _ _ heq3
  have hlAF : lookupKey (runUnions (d2.union ia ib) ps).labels A = some idxA := by
    rw [labF, union_labels]
    exact hlA2
  have hlBF : lookupKey (runUnions (d2.union ia ib) ps).labels B = some idxB := by
    rw [labF, union_labels]
    exact hlB
  have hiAeq : iA = idxA := by
    rw [hA] at hlAF
    exact Option.some.inj hlAF
  have hiBeq : iB = idxB := by
    rw [hB] at hlBF
    exact Option.some.inj hlBF
  subst hiAeq
  subst hiBeq
  have hlenU : (d2.union ia ib).root.length = d2.root.length :=
    union_root_length wf2.1 hia2 hib2
  have hiAlt : iA < (runUnions (d2.union ia ib) ps).root.length := by omega
  have hiBlt : iB < (runUnions (d2.union ia ib) ps).root.length := by omega
  exact (connected_eq wfF.1 hiAlt hiBlt).mpr heqF

/-! ## TrimSpace lemmas -/

theorem dropWhile_idem (p : Char → Bool) (l : List Char) :
    (l.dropWhile p).dropWhile p = l.dropWhile p := by
  induction l with
  | nil => rfl
  | cons a t ih =>
    by_cases h : p a
    · simp [List.dropWhile, h, ih]
    · simp [List.dropWhile, h]

theorem dropWhile_isSuffix (p : Char → Bool) (l : List Char) :
    l.dropWhile p <:+ l := by
  induction l with
  | nil => exact List.suffix_refl []
  | cons a t ih =>
    by_cases h : p a
    · simp only [List.dropWhile, h]
      exact ih.trans (List.suffix_cons a t)
    · simp only [List.dropWhile, h]
      exact List.suffix_refl _

theorem dropWhile_head_fails (p : Char → Bool) :
    ∀ (x : List Char) (c : Char) (s : List Char),
      x.dropWhile p = c :: s → p c = false := by
  intro x
  induction x with
  | nil =>
    intro c s h
    simp [List.dropWhile] at h
  | cons b bs ih =>
    intro c s h
    rw [List.dropWhile_cons] at h
    by_cases hb : p b
    · rw [if_pos hb] at h
      exact ih c s h
    · rw [if_neg hb] at h
      cases h
      cases hx : p b
      · rfl
      · exact absurd hx hb

theorem trimSpaceList_idem (l : List Char) :
    trimSpaceList (trimSpaceList l) = trimSpaceList l := by
  unfold trimSpaceList
  set p := goIsSpace with hp
  set u := l.dropWhile p with hu
  set v := (u.reverse.dropWhile p).reverse with hv
  have hvrev : v.reverse = u.reverse.dropWhile p := by
    rw [hv, List.reverse_reverse]
  have hureduced : u.dropWhile p = u := by
    rw [hu]
    exact dropWhile_idem p l
  have hdropv : v.dropWhile p = v := by
    obtain ⟨w, hw⟩ := dropWhile_isSuffix p u.reverse
    have hpref : v ++ w.reverse = u := by
      have hrev : (w ++ u.reverse.dropWhile p).reverse = u.reverse.reverse :=
        congrArg List.reverse hw
      rw [List.reverse_append, List.reverse_reverse, ← hvrev, List.reverse_reverse] at hrev
      exact hrev
    rcases hv0 : v with _ | ⟨a, t⟩
    · rfl
    · have hua : u = a :: (t ++ w.reverse) := by
        rw [← hpref, hv0]
        rfl
      have hpa : p a = false := by
        refine dropWhile_head_fails p u a (t ++ w.reverse) ?_
        rw [hureduced, hua]
      rw [List.dropWhile_cons, hpa]
      simp
  rw [hdropv, hvrev, dropWhile_idem p u.reverse, ← hvrev, List.reverse_reverse]

theorem trimSpace_idem (s : String) : trimSpace (trimSpace s) = trimSpace s := by
  unfold trimSpace
  exact congrArg String.mk (trimSpaceList_idem s.data)

theorem C7_witness :
    ((((emptyDSU.findOrCreate "a").2.findOrCreate "b").2.union
        (emptyDSU.findOrCreate "a").1
        ((emptyDSU.findOrCreate "a").2.findOrCreate "b").1).connected 0 1).1 = true := by
  have hwf : emptyDSU.WF := by
    refine ⟨⟨rfl, fun x hx => ?_⟩, fun p hp => ?_⟩
    · simp [emptyDSU] at hx
    · simp [emptyDSU] at hp
  refine C7_connected_monotone emptyDSU "a" "b" hwf []
    (emptyDSU.findOrCreate "a").1 (emptyDSU.findOrCreate "a").2 rfl
    ((emptyDSU.findOrCreate "a").2.findOrCreate "b").1
    ((emptyDSU.findOrCreate "a").2.findOrCreate "b").2 rfl
    trivial 0 1 (by decide) (by decide)

/-! ## Reductions of `Classify` -/

/-- On a live classifier with non-blank input, a successful embedding and a
content search that does not clear the threshold, `Classify` reduces to its
miss path. -/
theorem classify_miss_eq (c : CState) (env : Env) (text : String)
    (v : List ℚ) (ms : List VectorMatch)
    (hclosing : c.closing = false)
    (htext : trimSpace text ≠ "")
    (hembed : env.embed (trimSpace text) = .ok v)
    (hsearch : env.searchContent v 1 = .ok ms)
    (hmiss : ∀ m, ms.head? = some m → ¬ (m.score ≥ c.minSimilarityContent)) :
    classify c env text = classifyMiss c env (trimSpace text) v := by
  unfold classify
  rw [hclosing]
  simp only [Bool.false_eq_true, if_false]
  rw [if_neg htext, hembed]
  simp only
  rw [hsearch]
  simp only
  rcases hh : ms.head? with _ | m
  · rfl
  · simp only
    rw [if_neg (hmiss m hh)]

/-- On a live classifier with non-blank input, a successful embedding and a
content match that clears the threshold, `Classify` takes its hit path. -/
theorem classify_hit_eq (c : CState) (env : Env) (text : String)
    (v : List ℚ) (ms : List VectorMatch) (m : VectorMatch)
    (hclosing : c.closing = false)
    (htext : trimSpace text ≠ "")
    (hembed : env.embed (trimSpace text) = .ok v)
    (hsearch : env.searchContent v 1 = .ok ms)
    (hhead : ms.head? = some m)
    (hscore : m.score ≥ c.minSimilarityContent) :
    classify c env text =
      match metaString m.metadata "label" with
      | none => .error .corruptCacheEntry
      | some label =>
        .ok ({ label := ((recordCacheHit c).dsu.findOrCreate label).2.findLabel
                          ((recordCacheHit c).dsu.findOrCreate label).1,
               cacheHit := true, confidence := m.score,
               userFacingLatency := env.userLatency, backgroundLatency := 0 },
             { recordCacheHit c with
                 dsu := ((recordCacheHit c).dsu.findOrCreate label).2 }) := by
  unfold classify
  rw [hclosing]
  simp only [Bool.false_eq_true, if_false]
  rw [if_neg htext, hembed]
  simp only
  rw [hsearch]
  simp only
  rw [hhead]
  simp only
  rw [if_pos hscore]

/-! ## Claim theorems for the orchestrator -/

/-- C9: blank input (empty after trimming Unicode whitespace) fails with
`InvalidInput` on every live classifier, for every collaborator
environment whatsoever — hence before any collaborator can be invoked. -/
theorem C9_invalid_input_rejected (c : CState) (env : Env) (text : String)
    (hclosing : c.closing = false) (hblank : trimSpace text = "") :
    classify c env text = .error .invalidInput := by
  unfold classify
  rw [hclosing]
  simp only [Bool.false_eq_true, if_false]
  rw [if_pos hblank]

theorem C9_witness :
    classify freshState quietEnv "   " = .error .invalidInput ∧
    classify freshState quietEnv "" = .error .invalidInput :=
  ⟨C9_invalid_input_rejected freshState quietEnv "   " rfl (by decide),
   C9_invalid_input_rejected freshState quietEnv "" rfl (by decide)⟩

/-- C10: the cache-hit rate is guarded against division by zero: it is `0`
when nothing has been classified yet, equals `hits / total * 100` otherwise,
and is a well-defined value between 0 and 100 whenever `hits ≤ total`. -/
theorem C10_metrics_hit_rate (c : CState) :
    (c.totalClassifications = 0 → (getMetrics c).cacheHitRate = 0) ∧
    (0 < c.totalClassifications →
      (getMetrics c).cacheHitRate
        = (c.cacheHits : ℚ) / (c.totalClassifications : ℚ) * 100) ∧
    (c.cacheHits ≤ c.totalClassifications →
      0 ≤ (getMetrics c).cacheHitRate ∧ (getMetrics c).cacheHitRate ≤ 100) := by
  unfold getMetrics
  dsimp only
  refine ⟨?_, ?_, ?_⟩
  · intro h
    rw [h]
    simp
  · intro h
    rw [if_pos h]
  · intro hle
    by_cases h : 0 < c.totalClassifications
    · rw [if_pos h]
      have ht : (0 : ℚ) < (c.totalClassifications : ℚ) := by exact_mod_cast h
      have hfrac : (c.cacheHits : ℚ) / (c.totalClassifications : ℚ) ≤ 1 := by
        rw [div_le_one ht]
        exact_mod_cast hle
      have hfrac0 : (0 : ℚ) ≤ (c.cacheHits : ℚ) / (c.totalClassifications : ℚ) := by
        positivity
      constructor
      · positivity
      · calc (c.cacheHits : ℚ) / (c.totalClassifications : ℚ) * 100
            ≤ 1 * 100 := by
              exact mul_le_mul_of_nonneg_right hfrac (by norm_num)
          _ = 100 := by norm_num
    · rw [if_neg h]
      norm_num

theorem C10_witness :
    (getMetrics { freshState with totalClassifications := 2, cacheHits := 1 }).cacheHitRate
      = 50 := by
  have h := (C10_metrics_hit_rate
    { freshState with totalClassifications := 2, cacheHits := 1 }).2.1 (by norm_num)
  rw [h]
  norm_num

/-- C3 (amended): `Close` flips the closing flag, so every `Classify` call
on the post-close state fails with `ShuttingDown` regardless of input or
collaborators; the wait-and-save sequence runs exactly once across any
number of `Close` invocations; and every invocation after the first returns
`nil` — which coincides with the first outcome exactly when the first save
succeeded (the claim's "subsequent invocations return the first outcome"
does not hold when the first save fails, see the counterexample). -/
theorem C3_close_idempotence (c : CState) (save : DSU → Option String)
    (hnotdone : c.onceDone = false) :
    (∀ env text, classify (closeClassifier c save).2.1 env text
      = .error .shuttingDown) ∧
    (closeClassifier c save).2.2 = true ∧
    (closeClassifier c save).1 = save { c with closing := true, onceDone := true }.dsu ∧
    (∀ s2 : DSU → Option String,
      closeClassifier (closeClassifier c save).2.1 s2
        = (none, (closeClassifier c save).2.1, false)) ∧
    (save { c with closing := true, onceDone := true }.dsu = none →
      ∀ s2 : DSU → Option String,
        (closeClassifier (closeClassifier c save).2.1 s2).1
          = (closeClassifier c save).1) := by
  have hstep : closeClassifier c save
      = (save { c with closing := true, onceDone := true }.dsu,
         { c with closing := true, onceDone := true }, true) := by
    unfold closeClassifier
    rw [hnotdone]
    simp
  refine ⟨?_, ?_, ?_, ?_, ?_⟩
  · intro env text
    rw [hstep]
    unfold classify
    simp
  · rw [hstep]
  · rw [hstep]
  · intro s2
    rw [hstep]
    unfold closeClassifier
    simp
  · intro hok s2
    rw [hstep]
    unfold closeClassifier
    simp [hok]

theorem C3_witness :
    classify (closeClassifier freshState (fun _ => none)).2.1 quietEnv "hello"
      = .error .shuttingDown ∧
    (closeClassifier freshState (fun _ => none)).2.2 = true ∧
    (closeClassifier (closeClassifier freshState (fun _ => none)).2.1 (fun _ => none)).1
      = (closeClassifier freshState (fun _ => none)).1 := by
  have h := C3_close_idempotence freshState (fun _ => none) rfl
  exact ⟨h.1 quietEnv "hello", h.2.1, h.2.2.2.2 rfl (fun _ => none)⟩

/-- C3 (counterexample to the claim as stated): when the first save fails,
the first `Close` returns that error while the second returns `nil`; the
outcomes differ, refuting "every subsequent Close invocation returns the
same outcome as the first one". -/
theorem C3_counterexample :
    (closeClassifier freshState (fun _ => some "disk full")).1 = some "disk full" ∧
    (closeClassifier (closeClassifier freshState (fun _ => some "disk full")).2.1
        (fun _ => some "disk full")).1 = none ∧
    (some "disk full" : Option String) ≠ none := by
  refine ⟨rfl, rfl, by decide⟩

/-- C1: when the content search of a live `Classify` call returns an
ordered match list containing a match at or above the content threshold,
the call is a cache hit: it answers `cacheHit = true`, confidence equal to
the (first, highest-scoring) match's score, zero background latency, and
the cluster root — resolved through the clustering store's
`FindOrCreate`/`FindLabel` — of the label carried in the match metadata;
a metadata entry lacking a string label fails the call with
`CorruptCacheEntry`; and the result is identical for every LLM
collaborator, so the LLM is never consulted. -/
theorem C1_cache_hit_contract (c : CState) (env : Env) (text : String)
    (v : List ℚ) (ms : List VectorMatch) (m : VectorMatch)
    (hclosing : c.closing = false)
    (htext : trimSpace text ≠ "")
    (hembed : env.embed (trimSpace text) = .ok v)
    (hsearch : env.searchContent v 1 = .ok ms)
    (hhead : ms.head? = some m)
    (hsorted : ms.Pairwise (fun a b => b.score ≤ a.score))
    (hexists : ∃ m2 ∈ ms, c.minSimilarityContent ≤ m2.score) :
    (∀ lbl, metaString m.metadata "label" = some lbl →
      classify c env text =
        .ok ({ label := (c.dsu.findOrCreate lbl).2.findLabel
                          (c.dsu.findOrCreate lbl).1,
               cacheHit := true, confidence := m.score,
               userFacingLatency := env.userLatency, backgroundLatency := 0 },
             { recordCacheHit c with dsu := (c.dsu.findOrCreate lbl).2 })) ∧
    (metaString m.metadata "label" = none →
      classify c env text = .error .corruptCacheEntry) ∧
    (∀ g : String → Except String String,
      classify c { env with llm := g } text = classify c env text) := by
  have hscore : m.score ≥ c.minSimilarityContent := by
    obtain ⟨m2, hm2, hs⟩ := hexists
    rcases ms with _ | ⟨hd, tl⟩
    · exact absurd hhead (by simp)
    · have hhd : hd = m := by simpa using hhead
      rcases List.mem_cons.mp hm2 with h | h
      · rw [← hhd, ← h]
        exact hs
      · have hle : m2.score ≤ hd.score := (List.pairwise_cons.mp hsorted).1 m2 h
        rw [← hhd]
        exact le_trans hs hle
  have hmain := classify_hit_eq c env text v ms m hclosing htext hembed hsearch hhead hscore
  refine ⟨?_, ?_, ?_⟩
  · intro lbl hlbl
    rw [hmain, hlbl]
    rfl
  · intro hnone
    rw [hmain, hnone]
  · intro g
    have h2 := classify_hit_eq c { env with llm := g } text v ms m hclosing htext
      hembed hsearch hhead hscore
    rw [hmain, h2]

theorem C1_witness :
    classify freshState hitEnv "hi"
      = .ok ({ label := (freshState.dsu.findOrCreate "greeting").2.findLabel
                          (freshState.dsu.findOrCreate "greeting").1,
               cacheHit := true, confidence := hitMatch.score,
               userFacingLatency := hitEnv.userLatency, backgroundLatency := 0 },
             { recordCacheHit freshState with
                 dsu := (freshState.dsu.findOrCreate "greeting").2 }) :=
  (C1_cache_hit_contract freshState hitEnv "hi" [1] [hitMatch] hitMatch rfl (by decide)
    rfl rfl rfl (by simp)
    ⟨hitMatch, by simp, by norm_num [freshState, DefaultMinSimilarity, hitMatch]⟩).1
    "greeting" (by decide)

/-- C2 (amended): on a cache miss the orchestrator normalizes the LLM label
by trimming only — the returned label equals the trimmed LLM output, hence
is non-empty and trimmed, and the call fails with `EmptyLabel` exactly when
the trimmed label is empty, for every LLM collaborator.  Lowercasing is
performed by the default LLM adapter, not by the orchestrator, so labels
from other collaborators (and cache-hit labels) need not be lowercase (see
the counterexample). -/
theorem C2_label_trimmed_nonempty (c : CState) (env : Env) (text : String)
    (v : List ℚ) (ms : List VectorMatch) (lbl : String)
    (hclosing : c.closing = false)
    (htext : trimSpace text ≠ "")
    (hembed : env.embed (trimSpace text) = .ok v)
    (hsearch : env.searchContent v 1 = .ok ms)
    (hmiss : ∀ m, ms.head? = some m → ¬ (m.score ≥ c.minSimilarityContent))
    (hllm : env.llm (trimSpace text) = .ok lbl) :
    (trimSpace lbl ≠ "" →
      ∃ res cs, classify c env text = .ok (res, cs) ∧
        res.label = trimSpace lbl ∧ res.label ≠ "" ∧
        trimSpace res.label = res.label ∧ res.cacheHit = false) ∧
    (trimSpace lbl = "" → classify c env text = .error .emptyLabel) := by
  have hred := classify_miss_eq c env text v ms hclosing htext hembed hsearch hmiss
  constructor
  · intro hne
    refine ⟨{ label := trimSpace lbl, cacheHit := false, confidence := 0,
              userFacingLatency := env.userLatency,
              backgroundLatency := env.bgLatency },
            (processBackgroundTasks (recordClassification c) env (trimSpace text) v
              (trimSpace lbl)).2,
            ?_, rfl, hne, trimSpace_idem lbl, rfl⟩
    rw [hred]
    unfold classifyMiss
    rw [hllm]
    simp only
    rw [if_neg hne]
  · intro he
    rw [hred]
    unfold classifyMiss
    rw [hllm]
    simp only
    rw [if_pos he]

theorem C2_witness :
    (classify freshState upperEnv "hello").toOption.map (fun p => p.1.label)
      = some (trimSpace "  TECH  ") ∧ trimSpace "  TECH  " ≠ "" := by
  have h := (C2_label_trimmed_nonempty freshState upperEnv "hello" [1] [] "  TECH  "
    rfl (by decide) rfl rfl (fun m hm => absurd hm (by simp)) rfl).1 (by decide)
  obtain ⟨res, cs, heq, hlab, hne, _, _⟩ := h
  refine ⟨?_, by decide⟩
  rw [heq]
  simp [Except.toOption, hlab]

/-- C2 (counterexample to the claim as stated): a non-default LLM
collaborator answering `"  TECH  "` makes `Classify` return the label
`"TECH"`, which is not lowercase-normalized — the orchestrator does not
lowercase. -/
theorem C2_counterexample :
    (classify freshState upperEnv "hello").toOption.map (fun p => p.1.label)
      = some "TECH" ∧
    ("TECH" : String).data.map Char.toLower = "tech".data ∧
    ("TECH" : String) ≠ "tech" := by
  refine ⟨rfl, by decide, by decide⟩

/-- C8: on a cache miss the result never depends on the outcome of the
background maintenance jobs: for every behavior of the maintenance
collaborators (both vector upserts, the label-space search) and every
context-cancellation state, the call still returns the fresh trimmed label
with `cacheHit = false` and no error. -/
theorem C8_maintenance_errors_not_surfaced (c : CState) (env : Env) (text : String)
    (v : List ℚ) (ms : List VectorMatch) (lbl : String)
    (hclosing : c.closing = false)
    (htext : trimSpace text ≠ "")
    (hembed : env.embed (trimSpace text) = .ok v)
    (hsearch : env.searchContent v 1 = .ok ms)
    (hmiss : ∀ m, ms.head? = some m → ¬ (m.score ≥ c.minSimilarityContent))
    (hllm : env.llm (trimSpace text) = .ok lbl)
    (hlbl : trimSpace lbl ≠ "") :
    ∀ (u1 u2 : String → List ℚ → List (String × MetaVal) → Option String)
      (sl : List ℚ → Nat → Except String (List VectorMatch)) (cc : Bool),
      classify c { env with upsertContent := u1, upsertLabel := u2,
                            searchLabel := sl, ctxCanceled := cc } text
        = .ok ({ label := trimSpace lbl, cacheHit := false, confidence := 0,
                 userFacingLatency := env.userLatency,
                 backgroundLatency := env.bgLatency },
               (processBackgroundTasks (recordClassification c)
                  { env with upsertContent := u1, upsertLabel := u2,
                             searchLabel := sl, ctxCanceled := cc }
                  (trimSpace text) v (trimSpace lbl)).2) := by
  intro u1 u2 sl cc
  have hred := classify_miss_eq c
    { env with upsertContent := u1, upsertLabel := u2,
               searchLabel := sl, ctxCanceled := cc }
    text v ms hclosing htext hembed hsearch hmiss
  rw [hred]
  unfold classifyMiss
  have hproj : ({ env with upsertContent := u1, upsertLabel := u2, searchLabel := sl, ctxCanceled := cc } : Env).llm = env.llm := rfl
  rw [hproj, hllm]
  simp only
  rw [if_neg hlbl]

theorem C8_witness :
    (classify freshState
        { quietEnv with upsertContent := fun _ _ _ => some "boom",
                        upsertLabel := fun _ _ _ => some "boom",
                        searchLabel := fun _ _ => .error "label search down",
                        ctxCanceled := true } "hello").toOption.map
      (fun p => (p.1.label, p.1.cacheHit))
      = some ("tech", false) := by
  have h := C8_maintenance_errors_not_surfaced freshState quietEnv "hello" [1] [] "tech"
    rfl (by decide) rfl rfl (fun m hm => absurd hm (by simp)) rfl (by decide)
    (fun _ _ _ => some "boom") (fun _ _ _ => some "boom")
    (fun _ _ => .error "label search down") true
  rw [h]
  rfl

end CC
